import Mathlib

/-!
# Verification of the polygot string-extraction and translation pipeline

This file gives a shallow embedding, over `List Char` strings, of the core of the
polygot repository:

* the glossary manager (`src/translation-memory/glossary.js`),
* the translation memory store (`src/translation-memory/memory-store.js`),
* the translation orchestrator (`src/translator/translator.js`, the glossary-aware
  version, which the repository's spec designates as canonical),
* the memory-and-glossary workflow (`src/workflow/parse-and-translate.js`), and
* the regex-based string parser with exclusion rules (`src/parser/polygot.parser.js`),

together with theorems settling the frozen claims about this code.

JavaScript strings are modelled as `List Char`; JavaScript objects and `Map`s as
insertion-ordered association lists (`getK`/`setK` mirror property read and
assignment); the remote translation capability as a function
`List Str → Option (association list × usage)`, `none` modelling a thrown error.
Regex scans are modelled by explicit character scanners that reproduce the
leftmost-match, `lastIndex`-advancing semantics of `RegExp.exec` with the `g` flag
for the concrete patterns appearing in the source.
-/

namespace Polygot

/-- JavaScript strings, modelled as lists of characters. -/
abbrev Str := List Char

/-- Embed a Lean string literal as a `Str`. -/
def str (s : String) : Str := s.data

/-- JavaScript whitespace as used by `trim` / `\s`, restricted to the ASCII
whitespace characters (the inputs of this pipeline are source-code strings). -/
def isWS (c : Char) : Bool :=
  c = ' ' || c = '\t' || c = '\n' || c = '\r' || c = '\x0b' || c = '\x0c'

/-- `String.prototype.trim`: drop leading and trailing whitespace. -/
def trim (s : Str) : Str :=
  ((s.dropWhile isWS).reverse.dropWhile isWS).reverse

/-- `String.prototype.toLowerCase` (ASCII). -/
def lowerStr (s : Str) : Str := s.map Char.toLower

/-! ## Association lists

JavaScript objects and `Map`s are insertion-ordered key-value containers;
`setK` models `obj[k] = v` / `map.set(k, v)` (update in place if the key is
present, append otherwise) and `getK` models property lookup. -/

/-- First value stored under key `k`, if any. -/
def getK {β : Type} : List (Str × β) → Str → Option β
  | [], _ => none
  | (a, b) :: m, k => if a = k then some b else getK m k

/-- JavaScript assignment `m[k] = v`: overwrite in place, else append. -/
def setK {β : Type} : List (Str × β) → Str → β → List (Str × β)
  | [], k, v => [(k, v)]
  | (a, b) :: m, k, v => if a = k then (k, v) :: m else (a, b) :: setK m k v

/-- Key-presence test (`k in obj` / `map.has(k)`). -/
def hasK {β : Type} (m : List (Str × β)) (k : Str) : Bool := (getK m k).isSome

/-- The keys of an association list, in order. -/
def keysOf {β : Type} (m : List (Str × β)) : List Str := m.map Prod.fst

/-- `Object.assign(acc, m)`: assign every entry of `m` into `acc`, in order. -/
def assignAll (acc m : List (Str × Str)) : List (Str × Str) :=
  m.foldl (fun a p => setK a p.1 p.2) acc

/-- `Set`-style insertion: append unless already present. -/
def addStr (l : List Str) (s : Str) : List Str := if s ∈ l then l else l ++ [s]

/-- `[...new Set(l)]`: deduplicate keeping first occurrences. -/
def dedupFirst (l : List Str) : List Str := l.foldl addStr []

/-! ## Substring search and global replacement -/

/-- `pat` occurs in `l` at position `i`. -/
def occursAt (pat l : Str) (i : Nat) : Bool := pat.isPrefixOf (l.drop i)

/-- Index of the leftmost occurrence of `pat` in `l`, if any (the index at which
`RegExp.exec` of the literal pattern would match). -/
def firstMatchIdx (pat : Str) : Str → Option Nat
  | [] => if pat.isPrefixOf [] then some 0 else none
  | c :: rest =>
    if pat.isPrefixOf (c :: rest) then some 0
    else (firstMatchIdx pat rest).map (· + 1)

/-- `String.prototype.includes`. -/
def containsSub (pat l : Str) : Bool := (firstMatchIdx pat l).isSome

theorem occursAt_succ (pat : Str) (c : Char) (rest : Str) (i : Nat) :
    occursAt pat (c :: rest) (i + 1) = occursAt pat rest i := rfl

theorem occursAt_zero (pat l : Str) : occursAt pat l 0 = pat.isPrefixOf l := by
  simp [occursAt]

/-- A leftmost match is a match. -/
theorem firstMatchIdx_occurs {pat l : Str} {i : Nat}
    (h : firstMatchIdx pat l = some i) : occursAt pat l i = true := by
  induction l generalizing i with
  | nil =>
    unfold firstMatchIdx at h
    split at h
    · cases h; simpa [occursAt] using ‹pat.isPrefixOf [] = true›
    · cases h
  | cons c rest ih =>
    unfold firstMatchIdx at h
    split at h
    · cases h; simpa [occursAt] using ‹pat.isPrefixOf (c :: rest) = true›
    · match hrec : firstMatchIdx pat rest with
      | none => rw [hrec] at h; cases h
      | some j =>
        rw [hrec] at h
        simp at h
        subst h
        rw [occursAt_succ]
        exact ih hrec

/-- Nothing matches strictly before the leftmost match. -/
theorem firstMatchIdx_min {pat l : Str} {i j : Nat}
    (h : firstMatchIdx pat l = some i) (hj : j < i) : occursAt pat l j = false := by
  induction l generalizing i j with
  | nil =>
    unfold firstMatchIdx at h
    split at h
    · cases h; omega
    · cases h
  | cons c rest ih =>
    unfold firstMatchIdx at h
    split at h
    · cases h; omega
    · match hrec : firstMatchIdx pat rest with
      | none => rw [hrec] at h; cases h
      | some i' =>
        rw [hrec] at h
        simp at h
        subst h
        cases j with
        | zero =>
          simpa [occursAt_zero] using Bool.not_eq_true _ |>.mp ‹¬pat.isPrefixOf (c :: rest) = true›
        | succ j' =>
          rw [occursAt_succ]
          exact ih hrec (by omega)

/-- If some position matches, the leftmost match exists and is minimal. -/
theorem firstMatchIdx_of_occurs {pat l : Str} {k : Nat}
    (hk : occursAt pat l k = true) (hmin : ∀ j, j < k → occursAt pat l j = false) :
    firstMatchIdx pat l = some k := by
  induction l generalizing k with
  | nil =>
    cases k with
    | zero => unfold firstMatchIdx; simp [occursAt] at hk; simp [hk]
    | succ k' =>
      exfalso
      unfold occursAt at hk
      simp at hk
      have h0 := hmin 0 (Nat.succ_pos _)
      unfold occursAt at h0
      simp [hk] at h0
  | cons c rest ih =>
    cases k with
    | zero =>
      unfold firstMatchIdx
      rw [occursAt_zero] at hk
      simp [hk]
    | succ k' =>
      unfold firstMatchIdx
      have h0 := hmin 0 (Nat.succ_pos _)
      rw [occursAt_zero] at h0
      simp [h0]
      rw [occursAt_succ] at hk
      have : firstMatchIdx pat rest = some k' :=
        ih hk (fun j hj => by
          have := hmin (j + 1) (by omega)
          rwa [occursAt_succ] at this)
      simp [this]

/-- No leftmost match means no match anywhere. -/
theorem not_occurs_of_firstMatchIdx_none {pat l : Str}
    (h : firstMatchIdx pat l = none) : ∀ i, occursAt pat l i = false := by
  intro i
  cases hb : occursAt pat l i with
  | false => rfl
  | true =>
    exfalso
    have hex : ∃ j, occursAt pat l j = true := ⟨i, hb⟩
    have hk := Nat.find_spec hex
    have hmin : ∀ j, j < Nat.find hex → occursAt pat l j = false := by
      intro j hj
      have := Nat.find_min hex hj
      cases hb2 : occursAt pat l j
      · rfl
      · exact absurd hb2 this
    have := firstMatchIdx_of_occurs hk hmin
    rw [h] at this; cases this

/-- Length bound for a match of a nonempty pattern. -/
theorem occursAt_length_le {pat l : Str} {i : Nat} (hp : pat ≠ [])
    (hocc : occursAt pat l i = true) : i + pat.length ≤ l.length := by
  unfold occursAt at hocc
  have hpre : pat <+: l.drop i := List.isPrefixOf_iff_prefix.mp hocc
  have h1 := hpre.length_le
  rw [List.length_drop] at h1
  have h2 : 1 ≤ pat.length := List.length_pos.mpr hp
  omega

/-- Fuel-driven core of `replaceAll`: any fuel at least the input length gives
the same (fully replaced) result. -/
def replaceAllF : Nat → Str → Str → Str → Str
  | 0, _, _, l => l
  | fuel + 1, pat, rep, l =>
    if pat = [] then l
    else
      match firstMatchIdx pat l with
      | none => l
      | some i => l.take i ++ rep ++ replaceAllF fuel pat rep (l.drop (i + pat.length))

/-- `String.prototype.replace(new RegExp(literalPat, "g"), rep)`: replace every
occurrence of `pat`, scanning left to right and continuing after each
replacement.  The JavaScript source only ever builds such regexes from
regex-escaped literal text, so plain substring matching is exact. -/
def replaceAll (pat rep l : Str) : Str := replaceAllF l.length pat rep l

/-- Fuel-driven core of `countSub`. -/
def countSubF : Nat → Str → Str → Nat
  | 0, _, _ => 0
  | fuel + 1, pat, l =>
    if pat = [] then 0
    else
      match firstMatchIdx pat l with
      | none => 0
      | some i => 1 + countSubF fuel pat (l.drop (i + pat.length))

/-- Number of (leftmost, non-overlapping) occurrences of `pat` in `l`. -/
def countSub (pat l : Str) : Nat := countSubF l.length pat l

theorem replaceAllF_of_none {pat rep l : Str} (fuel : Nat)
    (h : firstMatchIdx pat l = none) : replaceAllF fuel pat rep l = l := by
  cases fuel with
  | zero => rfl
  | succ f =>
    simp only [replaceAllF]
    by_cases hp : pat = []
    · rw [if_pos hp]
    · rw [if_neg hp, h]

theorem replaceAll_of_none {pat rep l : Str}
    (h : firstMatchIdx pat l = none) : replaceAll pat rep l = l :=
  replaceAllF_of_none l.length h

theorem replaceAllF_fuel : ∀ (f1 f2 : Nat) (pat rep l : Str), l.length ≤ f1 →
    l.length ≤ f2 → replaceAllF f1 pat rep l = replaceAllF f2 pat rep l := by
  intro f1
  induction f1 with
  | zero =>
    intro f2 pat rep l h1 h2
    have hl : l = [] := List.length_eq_zero.mp (Nat.le_zero.mp h1)
    subst hl
    cases f2 with
    | zero => rfl
    | succ f =>
      simp only [replaceAllF]
      by_cases hp : pat = []
      · rw [if_pos hp]
      · rw [if_neg hp]
        have hm : firstMatchIdx pat ([] : Str) = none := by
          cases pat with
          | nil => exact absurd rfl hp
          | cons c cs => rfl
        rw [hm]
  | succ f1 ih =>
    intro f2 pat rep l h1 h2
    cases f2 with
    | zero =>
      have hl : l = [] := List.length_eq_zero.mp (Nat.le_zero.mp h2)
      subst hl
      simp only [replaceAllF]
      by_cases hp : pat = []
      · rw [if_pos hp]
      · rw [if_neg hp]
        have hm : firstMatchIdx pat ([] : Str) = none := by
          cases pat with
          | nil => exact absurd rfl hp
          | cons c cs => rfl
        rw [hm]
    | succ f2' =>
      by_cases hp : pat = []
      · simp only [replaceAllF, if_pos hp]
      · simp only [replaceAllF, if_neg hp]
        cases hm : firstMatchIdx pat l with
        | none => rfl
        | some i =>
          have hle := occursAt_length_le hp (firstMatchIdx_occurs hm)
          have hp1 : 1 ≤ pat.length := List.length_pos.mpr hp
          show l.take i ++ rep ++ replaceAllF f1 pat rep (l.drop (i + pat.length)) =
            l.take i ++ rep ++ replaceAllF f2' pat rep (l.drop (i + pat.length))
          rw [ih f2' pat rep (l.drop (i + pat.length)) ?_ ?_]
          · rw [List.length_drop]; omega
          · rw [List.length_drop]; omega

theorem replaceAll_of_some {pat rep l : Str} {i : Nat} (hp : pat ≠ [])
    (h : firstMatchIdx pat l = some i) :
    replaceAll pat rep l = l.take i ++ rep ++ replaceAll pat rep (l.drop (i + pat.length)) := by
  have hle := occursAt_length_le hp (firstMatchIdx_occurs h)
  have hp1 : 1 ≤ pat.length := List.length_pos.mpr hp
  obtain ⟨m, hm⟩ : ∃ m, l.length = m + 1 := ⟨l.length - 1, by omega⟩
  unfold replaceAll
  rw [hm]
  simp only [replaceAllF, if_neg hp]
  rw [h]
  show l.take i ++ rep ++ replaceAllF m pat rep (l.drop (i + pat.length)) = _
  rw [replaceAllF_fuel m (l.drop (i + pat.length)).length pat rep _ ?_ (Nat.le_refl _)]
  rw [List.length_drop]
  omega

theorem countSubF_of_none {pat l : Str} (fuel : Nat)
    (h : firstMatchIdx pat l = none) : countSubF fuel pat l = 0 := by
  cases fuel with
  | zero => rfl
  | succ f =>
    simp only [countSubF]
    by_cases hp : pat = []
    · rw [if_pos hp]
    · rw [if_neg hp, h]

theorem countSub_of_none {pat l : Str}
    (h : firstMatchIdx pat l = none) : countSub pat l = 0 :=
  countSubF_of_none l.length h

theorem countSubF_fuel : ∀ (f1 f2 : Nat) (pat l : Str), l.length ≤ f1 →
    l.length ≤ f2 → countSubF f1 pat l = countSubF f2 pat l := by
  intro f1
  induction f1 with
  | zero =>
    intro f2 pat l h1 h2
    have hl : l = [] := List.length_eq_zero.mp (Nat.le_zero.mp h1)
    subst hl
    cases f2 with
    | zero => rfl
    | succ f =>
      simp only [countSubF]
      by_cases hp : pat = []
      · rw [if_pos hp]
      · rw [if_neg hp]
        have hm : firstMatchIdx pat ([] : Str) = none := by
          cases pat with
          | nil => exact absurd rfl hp
          | cons c cs => rfl
        rw [hm]
  | succ f1 ih =>
    intro f2 pat l h1 h2
    cases f2 with
    | zero =>
      have hl : l = [] := List.length_eq_zero.mp (Nat.le_zero.mp h2)
      subst hl
      simp only [countSubF]
      by_cases hp : pat = []
      · rw [if_pos hp]
      · rw [if_neg hp]
        have hm : firstMatchIdx pat ([] : Str) = none := by
          cases pat with
          | nil => exact absurd rfl hp
          | cons c cs => rfl
        rw [hm]
    | succ f2' =>
      by_cases hp : pat = []
      · simp only [countSubF, if_pos hp]
      · simp only [countSubF, if_neg hp]
        cases hm : firstMatchIdx pat l with
        | none => rfl
        | some i =>
          have hle := occursAt_length_le hp (firstMatchIdx_occurs hm)
          have hp1 : 1 ≤ pat.length := List.length_pos.mpr hp
          show 1 + countSubF f1 pat (l.drop (i + pat.length)) =
            1 + countSubF f2' pat (l.drop (i + pat.length))
          rw [ih f2' pat (l.drop (i + pat.length)) ?_ ?_]
          · rw [List.length_drop]; omega
          · rw [List.length_drop]; omega

theorem countSub_of_some {pat l : Str} {i : Nat} (hp : pat ≠ [])
    (h : firstMatchIdx pat l = some i) :
    countSub pat l = 1 + countSub pat (l.drop (i + pat.length)) := by
  have hle := occursAt_length_le hp (firstMatchIdx_occurs h)
  have hp1 : 1 ≤ pat.length := List.length_pos.mpr hp
  obtain ⟨m, hm⟩ : ∃ m, l.length = m + 1 := ⟨l.length - 1, by omega⟩
  unfold countSub
  rw [hm]
  simp only [countSubF, if_neg hp]
  rw [h]
  show 1 + countSubF m pat (l.drop (i + pat.length)) = _
  rw [countSubF_fuel m (l.drop (i + pat.length)).length pat _ ?_ (Nat.le_refl _)]
  rw [List.length_drop]
  omega

/-- `containsSub` rephrased through `occursAt`. -/
theorem containsSub_eq_false_iff {pat l : Str} :
    containsSub pat l = false ↔ ∀ i, occursAt pat l i = false := by
  unfold containsSub
  constructor
  · intro h i
    cases hm : firstMatchIdx pat l with
    | none => exact not_occurs_of_firstMatchIdx_none hm i
    | some j => rw [hm] at h; cases h
  · intro h
    cases hm : firstMatchIdx pat l with
    | none => rfl
    | some j =>
      have := firstMatchIdx_occurs hm
      rw [h j] at this
      cases this

/-! ## Glossary manager (`src/translation-memory/glossary.js`)

A glossary entry, with the fields read by the verified operations.  The
persistence metadata (`category`, `description`, `context`, `createdAt`,
`updatedAt`) is never consulted by `findInText`, `preprocessStrings`,
`postprocessTranslations`, `filterStrings` or `prepareForTranslation` and is
omitted from the model. -/
structure GlossaryEntry where
  term : Str
  translations : List (Str × Str)
  caseSensitive : Bool
  doNotTranslate : Bool
deriving DecidableEq

/-- The in-memory state of `GlossaryManager`: the `terms` map, keyed by
`_generateKey(term, caseSensitive)`, in insertion order. -/
structure GlossaryManager where
  terms : List (Str × GlossaryEntry)
deriving DecidableEq

/-- Truthy property read `m[k]` for string-valued objects: JavaScript treats a
missing property and the empty string alike as falsy. -/
def truthyGet (m : List (Str × Str)) (k : Str) : Option Str :=
  match getK m k with
  | some v => if v = [] then none else some v
  | none => none

/-- `_generateKey`: the term itself, lowercased for case-insensitive entries. -/
def generateKey (term : Str) (caseSensitive : Bool) : Str :=
  if caseSensitive then term else lowerStr term

/-- `GlossaryManager.get`. -/
def GlossaryManager.get (g : GlossaryManager) (term : Str) (caseSensitive : Bool) :
    Option GlossaryEntry :=
  getK g.terms (generateKey term caseSensitive)

/-! ### `findInText`: word-boundary term scanning

`findInText` runs, per entry, `new RegExp("\\b" + escaped term + "\\b", "g")`
(`"gi"` for case-insensitive entries) over the text.  The scan below reproduces
the `exec` loop: leftmost matches, continuing after each match. -/

/-- JavaScript `\w`: ASCII letters, digits and underscore. -/
def isWordChar (c : Char) : Bool := c.isAlphanum || c = '_'

/-- Whether position `i` of `t` holds a word character. -/
def wordAt (t : Str) (i : Nat) : Bool :=
  match t.get? i with
  | some c => isWordChar c
  | none => false

/-- JavaScript `\b` between positions `i - 1` and `i` of `t`. -/
def boundaryAt (t : Str) (i : Nat) : Bool :=
  (if i = 0 then false else wordAt t (i - 1)) != wordAt t i

/-- `\b term \b` matches `t` at position `p` (case (in)sensitively). -/
def termMatchAt (term : Str) (cs : Bool) (t : Str) (p : Nat) : Bool :=
  (if cs then (t.drop p).take term.length = term
   else lowerStr ((t.drop p).take term.length) = lowerStr term)
  && boundaryAt t p && boundaryAt t (p + term.length)

/-- The `exec` loop from position `i`, with enough fuel to reach the end of
`t`; yields `(position, matchedText)` pairs. -/
def scanTermFrom (term : Str) (cs : Bool) (t : Str) : Nat → Nat → List (Nat × Str)
  | _, 0 => []
  | i, fuel + 1 =>
    if t.length < i then []
    else if termMatchAt term cs t i then
      (i, (t.drop i).take term.length) :: scanTermFrom term cs t (i + term.length) fuel
    else scanTermFrom term cs t (i + 1) fuel

/-- All matches of one glossary term in `t`.  (For an empty term the source's
`exec` loop would never advance; the model returns no matches.) -/
def scanTerm (term : Str) (cs : Bool) (t : Str) : List (Nat × Str) :=
  if term = [] then [] else scanTermFrom term cs t 0 (t.length + 1)

/-- One element of the list `findInText` returns. -/
structure FoundTerm where
  term : Str
  position : Nat
  matchedText : Str
  entry : GlossaryEntry
deriving DecidableEq

/-- Stable insertion into a position-ascending list (ties keep earlier elements
first, as V8's stable `Array.prototype.sort` does). -/
def insertPosAsc (x : FoundTerm) : List FoundTerm → List FoundTerm
  | [] => [x]
  | y :: ys => if y.position < x.position then y :: insertPosAsc x ys else x :: y :: ys

/-- Stable sort by ascending position (`(a, b) => a.position - b.position`). -/
def sortPosAsc : List FoundTerm → List FoundTerm
  | [] => []
  | x :: xs => insertPosAsc x (sortPosAsc xs)

/-- Stable insertion into a position-descending list. -/
def insertPosDesc (x : FoundTerm) : List FoundTerm → List FoundTerm
  | [] => [x]
  | y :: ys => if x.position < y.position then y :: insertPosDesc x ys else x :: y :: ys

/-- Stable sort by descending position (`(a, b) => b.position - a.position`). -/
def sortPosDesc : List FoundTerm → List FoundTerm
  | [] => []
  | x :: xs => insertPosDesc x (sortPosDesc xs)

/-- `GlossaryManager.findInText`: all term matches over all entries, sorted by
ascending position. -/
def GlossaryManager.findInText (g : GlossaryManager) (text : Str) : List FoundTerm :=
  sortPosAsc ((g.terms.map (fun p =>
    (scanTerm p.2.term p.2.caseSensitive text).map
      (fun q => FoundTerm.mk p.2.term q.1 q.2 p.2))).flatten)

/-! ### Placeholder substitution -/

/-- The value stored in the ephemeral glossary map for one placeholder. -/
structure PlaceholderInfo where
  original : Str
  term : Str
  translation : Str
  position : Nat
  caseSensitive : Bool
deriving DecidableEq

/-- The `__GLOSSARY_<n>__` placeholder token. -/
def placeholderOf (n : Nat) : Str := str "__GLOSSARY_" ++ (Nat.repr n).data ++ str "__"

/-- `entry.doNotTranslate || entry.translations[targetLang]` (truthily). -/
def glossQualifies (e : GlossaryEntry) (targetLang : Str) : Bool :=
  e.doNotTranslate || (truthyGet e.translations targetLang).isSome

/-- `entry.doNotTranslate ? entry.term : entry.translations[targetLang]`. -/
def glossFinalOf (e : GlossaryEntry) (targetLang : Str) : Str :=
  if e.doNotTranslate then e.term else (truthyGet e.translations targetLang).getD []

/-- One step of the replacement loop of `preprocessStrings`, over the state
`(processedStr, placeholderIndex, glossaryMap)`. -/
def applyFound (targetLang : Str) (st : Str × Nat × List (Str × PlaceholderInfo))
    (f : FoundTerm) : Str × Nat × List (Str × PlaceholderInfo) :=
  let (ps, idx, gm) := st
  if glossQualifies f.entry targetLang then
    let ph := placeholderOf idx
    (ps.take f.position ++ ph ++ ps.drop (f.position + f.matchedText.length),
     idx + 1,
     setK gm ph
       ⟨f.matchedText, f.entry.term, glossFinalOf f.entry targetLang,
        f.position, f.entry.caseSensitive⟩)
  else (ps, idx, gm)

/-- The loop body of `preprocessStrings` for one string: run the replacement
loop over that string's matches (sorted by descending position) and append the
processed string. -/
def preprocessStep (g : GlossaryManager) (targetLang : Str)
    (acc : List Str × Nat × List (Str × PlaceholderInfo)) (s : Str) :
    List Str × Nat × List (Str × PlaceholderInfo) :=
  let found := sortPosDesc (g.findInText s)
  let r := found.foldl (applyFound targetLang) (s, acc.2.1, acc.2.2)
  (acc.1 ++ [r.1], r.2.1, r.2.2)

/-- `GlossaryManager.preprocessStrings`: replace qualifying found terms with
placeholders, walking each string's matches by descending position; the
placeholder index is global over the whole call. -/
def GlossaryManager.preprocessStrings (g : GlossaryManager) (strings : List Str)
    (targetLang : Str) : List Str × List (Str × PlaceholderInfo) :=
  let r := strings.foldl (preprocessStep g targetLang) ([], 0, [])
  (r.1, r.2.2)

/-- The inner loop of `postprocessTranslations`: replace every placeholder still
present in one translated string. -/
def restorePlaceholders (gm : List (Str × PlaceholderInfo)) (v : Str) : Str :=
  gm.foldl (fun s p => if containsSub p.1 s then replaceAll p.1 p.2.translation s else s) v

/-- `GlossaryManager.postprocessTranslations`. -/
def postprocessTranslations (translations : List (Str × Str))
    (gm : List (Str × PlaceholderInfo)) : List (Str × Str) :=
  translations.foldl (fun final p => setK final p.1 (restorePlaceholders gm p.2)) []

/-- `this.get(trimmed, true) || this.get(trimmed, false)` (an entry object is
always truthy). -/
def glossLookup (g : GlossaryManager) (trimmed : Str) : Option GlossaryEntry :=
  match g.get trimmed true with
  | some e => some e
  | none => g.get trimmed false

/-- The loop body of `filterStrings` for one string. -/
def filterStep (g : GlossaryManager) (targetLang : Str)
    (acc : List Str × List (Str × Str)) (s : Str) : List Str × List (Str × Str) :=
  match glossLookup g (trim s) with
  | some e =>
    if e.doNotTranslate then (acc.1, setK acc.2 s e.term)
    else
      match truthyGet e.translations targetLang with
      | some tr => (acc.1, setK acc.2 s tr)
      | none => (acc.1 ++ [s], acc.2)
  | none => (acc.1 ++ [s], acc.2)

/-- `GlossaryManager.filterStrings`: returns `(needTranslation, skipTranslation)`. -/
def GlossaryManager.filterStrings (g : GlossaryManager) (strings : List Str)
    (targetLang : Str) : List Str × List (Str × Str) :=
  strings.foldl (filterStep g targetLang) ([], [])

/-- The record returned by `prepareForTranslation`. -/
structure PrepResult where
  stringsForAPI : List Str
  glossaryMap : List (Str × PlaceholderInfo)
  skipTranslation : List (Str × Str)
  originalStrings : List Str
deriving DecidableEq

/-- `GlossaryManager.prepareForTranslation`. -/
def GlossaryManager.prepareForTranslation (g : GlossaryManager) (strings : List Str)
    (targetLang : Str) : PrepResult :=
  let fr := g.filterStrings strings targetLang
  let pr := g.preprocessStrings fr.1 targetLang
  ⟨pr.1, pr.2, fr.2, fr.1⟩

/-- `GlossaryManager.finalizeTranslations` (the `originalStrings` argument is
unused in the source as well). -/
def finalizeTranslations (apiTranslations : List (Str × Str))
    (gm : List (Str × PlaceholderInfo)) (skipTranslation : List (Str × Str))
    (_originalStrings : List Str) : List (Str × Str) :=
  let processedFromAPI := postprocessTranslations apiTranslations gm
  assignAll processedFromAPI skipTranslation

/-! ## Translation memory store (`src/translation-memory/memory-store.js`)

The cache entry, with the fields consulted by `get`/`set`.  The usage
statistics (`createdAt`, `lastUsed`, `useCount`, hit/miss counters) and
per-entry metadata only feed observability and persistence and are not
modelled; they never influence which translation a lookup returns. -/
structure MemoryEntry where
  sourceText : Str
  translation : Str
  sourceLang : Str
  targetLang : Str
deriving DecidableEq

/-- The in-memory state of `TranslationMemoryStore`.  The source keys entries by
`sourceLang:targetLang:` plus a 16-hex-digit SHA-256 prefix of the trimmed
source text; the hash is abstracted as a function parameter, so every theorem
below holds for every hash function — colliding ones included. -/
structure TranslationMemoryStore where
  hash : Str → Str
  cache : List (Str × MemoryEntry)

/-- `_generateKey(sourceText, sourceLang, targetLang)`. -/
def TranslationMemoryStore.generateKey (st : TranslationMemoryStore)
    (sourceText sourceLang targetLang : Str) : Str :=
  sourceLang ++ str ":" ++ targetLang ++ str ":" ++ st.hash (trim sourceText)

/-- `TranslationMemoryStore.get`: key lookup guarded by comparison of the stored
exact (trimmed) source text. -/
def TranslationMemoryStore.get (st : TranslationMemoryStore)
    (sourceText sourceLang targetLang : Str) : Option Str :=
  match getK st.cache (st.generateKey sourceText sourceLang targetLang) with
  | some e => if e.sourceText = trim sourceText then some e.translation else none
  | none => none

/-- `TranslationMemoryStore.set`: stores the trimmed source and the trimmed
translation under the generated key. -/
def TranslationMemoryStore.set (st : TranslationMemoryStore)
    (sourceText translation sourceLang targetLang : Str) : TranslationMemoryStore :=
  { st with
    cache := setK st.cache (st.generateKey sourceText sourceLang targetLang)
      ⟨trim sourceText, trim translation, sourceLang, targetLang⟩ }

/-- `TranslationMemoryStore.batchGet`: split `sourceTexts` into a `found` map and
a `missing` list; a returned empty-string translation is falsy in
`if (translation)` and is treated as missing. -/
def batchGetStep (st : TranslationMemoryStore) (sourceLang targetLang : Str)
    (acc : List (Str × Str) × List Str) (t : Str) : List (Str × Str) × List Str :=
  match st.get t sourceLang targetLang with
  | some tr => if tr = [] then (acc.1, acc.2 ++ [t]) else (setK acc.1 t tr, acc.2)
  | none => (acc.1, acc.2 ++ [t])

def TranslationMemoryStore.batchGet (st : TranslationMemoryStore)
    (sourceTexts : List Str) (sourceLang targetLang : Str) :
    List (Str × Str) × List Str :=
  sourceTexts.foldl (batchGetStep st sourceLang targetLang) ([], [])

/-- `TranslationMemoryStore.batchSet`. -/
def TranslationMemoryStore.batchSet (st : TranslationMemoryStore)
    (translations : List (Str × Str)) (sourceLang targetLang : Str) :
    TranslationMemoryStore :=
  translations.foldl (fun a p => a.set p.1 p.2 sourceLang targetLang) st

/-! ## Translation orchestrator (`src/translator/translator.js`)

The glossary-aware `translateStrings` (the version the repository's spec calls
canonical).  The remote OpenAI call is the opaque translation capability:
given one chunk it either returns the parsed JSON response object together
with the reported token usage, or throws (`none`). -/

/-- The `SUPPORTED_LANGUAGES` table from `src/translator/languages.js`. -/
def SUPPORTED_LANGUAGES : List (Str × Str) := [
  (str "en", str "English"), (str "es", str "Spanish"), (str "fr", str "French"),
  (str "de", str "German"), (str "it", str "Italian"), (str "pt", str "Portuguese"),
  (str "ru", str "Russian"), (str "pl", str "Polish"), (str "nl", str "Dutch"),
  (str "sv", str "Swedish"), (str "da", str "Danish"), (str "no", str "Norwegian"),
  (str "fi", str "Finnish"), (str "el", str "Greek"), (str "cs", str "Czech"),
  (str "ro", str "Romanian"), (str "hu", str "Hungarian"), (str "tr", str "Turkish"),
  (str "zh", str "Chinese (Simplified)"), (str "zh-TW", str "Chinese (Traditional)"),
  (str "ja", str "Japanese"), (str "ko", str "Korean"), (str "hi", str "Hindi"),
  (str "th", str "Thai"), (str "vi", str "Vietnamese"), (str "id", str "Indonesian"),
  (str "ar", str "Arabic"), (str "he", str "Hebrew"), (str "fa", str "Persian"),
  (str "uk", str "Ukrainian"), (str "bn", str "Bengali")]

/-- Token usage reported by the capability for one successful call
(`response.usage`). -/
structure ApiUsage where
  promptTokens : Nat
  completionTokens : Nat
  totalTokens : Nat
deriving DecidableEq

/-- The opaque translation capability: one chunk in, either the parsed JSON
response object plus usage, or a thrown error (`none`). -/
def Api : Type := List Str → Option (List (Str × Str) × ApiUsage)

/-- Per-chunk usage entry pushed onto `tokenUsage.chunks`. -/
structure ChunkUsage where
  chunkNumber : Nat
  input : Nat
  output : Nat
  total : Nat
deriving DecidableEq

/-- The accumulated `tokenUsage` record. -/
structure TokenUsage where
  input : Nat
  output : Nat
  total : Nat
  chunks : List ChunkUsage
deriving DecidableEq

/-- Validation errors thrown synchronously by `translateStrings`. -/
inductive TransError where
  /-- `Unsupported language: ...` — carries the supported codes listed in the
  message. -/
  | unsupportedLanguage (validCodes : List Str)
  /-- `Strings must be a non-empty array`. -/
  | invalidInput
  /-- `OpenAI API key is required`. -/
  | missingCredential
deriving DecidableEq

/-- The result of a successful `translateStrings` run (the `model` name and the
wall-clock `timestamp` of the metadata are not modelled). -/
structure TransResult where
  translations : List (Str × Str)
  tokensUsed : TokenUsage
  languageCode : Str
  languageName : Str
  totalStrings : Nat
  fromGlossary : Nat
  fromAPI : Nat
  chunksCount : Nat
deriving DecidableEq

/-- Fuel-driven core of `chunkify`: any fuel at least the input length gives
the full chunk list. -/
def chunkifyF : Nat → List Str → Nat → List (List Str)
  | 0, _, _ => []
  | fuel + 1, l, n =>
    if n = 0 then []
    else if l = [] then []
    else l.take n :: chunkifyF fuel (l.drop n) n

/-- Split into chunks of at most `maxChunkSize` (`for (i...; i += maxChunkSize)
chunks.push(slice(i, i + maxChunkSize))`).  A zero chunk size would not
terminate in the source either; the model returns no chunks. -/
def chunkify (l : List Str) (maxChunkSize : Nat) : List (List Str) :=
  chunkifyF l.length l maxChunkSize

/-- The sequential chunk loop: on success, `Object.assign` the parsed response
and accumulate usage; on a thrown error, fall back to identity entries for the
chunk's strings.  (The fixed inter-chunk delay has no observable effect in the
model.) -/
def processChunks (api : Api) : Nat → List (List Str) →
    List (Str × Str) → TokenUsage → List (Str × Str) × TokenUsage
  | _, [], acc, usage => (acc, usage)
  | i, c :: rest, acc, usage =>
    match api c with
    | some (m, u) =>
      let cu : ChunkUsage := ⟨i + 1, u.promptTokens, u.completionTokens, u.totalTokens⟩
      processChunks api (i + 1) rest (assignAll acc m)
        ⟨usage.input + cu.input, usage.output + cu.output, usage.total + cu.total,
         usage.chunks ++ [cu]⟩
    | none =>
      processChunks api (i + 1) rest (c.foldl (fun a s => setK a s s) acc) usage

/-- The `uniqueStrings` preprocessing step:
`[...new Set(strings.filter((s) => s && s.trim()))]`. -/
def uniqueOf (strings : List Str) : List Str :=
  dedupFirst (strings.filter (fun s => !s.isEmpty && !(trim s).isEmpty))

/-- `translateStrings(strings, targetLanguage, apiKey, options)` of the
glossary-aware translator.  `apiKey = []` models an absent/empty (falsy) key;
`glossary` is the optional `GlossaryManager` option; `maxChunkSize` defaults to
50 in the source. -/
def translateStrings (api : Api) (strings : List Str) (targetLanguage apiKey : Str)
    (maxChunkSize : Nat) (glossary : Option GlossaryManager) :
    Except TransError TransResult :=
  match getK SUPPORTED_LANGUAGES targetLanguage with
  | none => .error (.unsupportedLanguage (keysOf SUPPORTED_LANGUAGES))
  | some languageName =>
    if strings = [] then .error .invalidInput
    else if apiKey = [] then .error .missingCredential
    else
      let uniqueStrings := uniqueOf strings
      match glossary with
      | some g =>
        let glossaryData := g.prepareForTranslation uniqueStrings targetLanguage
        let allTranslations0 := assignAll [] glossaryData.skipTranslation
        let stringsToTranslate := glossaryData.stringsForAPI
        if stringsToTranslate = [] then
          .ok ⟨allTranslations0, ⟨0, 0, 0, []⟩, targetLanguage, languageName,
            uniqueStrings.length, uniqueStrings.length, 0, 0⟩
        else
          let chunks := chunkify stringsToTranslate maxChunkSize
          let (allT, tokenUsage) := processChunks api 0 chunks allTranslations0 ⟨0, 0, 0, []⟩
          let apiTranslations :=
            allT.filter (fun p => !hasK glossaryData.skipTranslation p.1)
          let processed := postprocessTranslations apiTranslations glossaryData.glossaryMap
          let allT' := assignAll allT processed
          .ok ⟨allT', tokenUsage, targetLanguage, languageName,
            uniqueStrings.length, glossaryData.skipTranslation.length,
            stringsToTranslate.length, chunks.length⟩
      | none =>
        let stringsToTranslate := uniqueStrings
        if stringsToTranslate = [] then
          .ok ⟨[], ⟨0, 0, 0, []⟩, targetLanguage, languageName,
            uniqueStrings.length, uniqueStrings.length, 0, 0⟩
        else
          let chunks := chunkify stringsToTranslate maxChunkSize
          let (allT, tokenUsage) := processChunks api 0 chunks [] ⟨0, 0, 0, []⟩
          .ok ⟨allT, tokenUsage, targetLanguage, languageName,
            uniqueStrings.length, 0, stringsToTranslate.length, chunks.length⟩

/-! ## Workflow driver (`src/workflow/parse-and-translate.js`)

`translateWithMemoryAndGlossary`: the three-tier pipeline (memory → glossary →
API).  The `apiSavings` statistic is a formatted percentage string
(floating-point `toFixed`) and is not modelled; all counted statistics are. -/

/-- The result of `translateWithMemoryAndGlossary`, plus the memory store's
final state (the source mutates the store in place). -/
structure WfResult where
  translations : List (Str × Str)
  tokensUsed : TokenUsage
  total : Nat
  fromMemory : Nat
  fromGlossary : Nat
  fromAPI : Nat
  memoryAfter : Option TranslationMemoryStore

/-- `translateWithMemoryAndGlossary(strings, targetLang, apiKey, options)`.  The
inner `translateStrings` call receives the options minus `memory`/`glossary`,
so it runs without a glossary of its own. -/
def wfMemoryStage (strings : List Str) (memory : Option TranslationMemoryStore)
    (sourceLang targetLang : Str) : List (Str × Str) × Nat × List Str :=
  match memory with
  | some mem =>
    let fm := mem.batchGet strings sourceLang targetLang
    (assignAll [] fm.1, fm.1.length, fm.2)
  | none => ([], 0, strings)

def wfGlossaryStage (finalT0 : List (Str × Str)) (toTrans1 : List Str)
    (glossary : Option GlossaryManager) (targetLang : Str) :
    List (Str × Str) × Nat × List Str × Option PrepResult :=
  match glossary with
  | some g =>
    if toTrans1 = [] then (finalT0, 0, toTrans1, none)
    else
      let gd := g.prepareForTranslation toTrans1 targetLang
      (assignAll finalT0 gd.skipTranslation,
       gd.skipTranslation.length, gd.stringsForAPI, some gd)
  | none => (finalT0, 0, toTrans1, none)

def translateWithMemoryAndGlossary (api : Api) (strings : List Str)
    (targetLang apiKey : Str) (memory : Option TranslationMemoryStore)
    (glossary : Option GlossaryManager) (sourceLang : Str) (maxChunkSize : Nat) :
    Except TransError WfResult :=
  -- Step 1: check memory for cached translations
  let step1 := wfMemoryStage strings memory sourceLang targetLang
  let finalT0 := step1.1
  let memoryHits := step1.2.1
  let toTrans1 := step1.2.2
  -- Step 2: apply glossary filtering
  let step2 := wfGlossaryStage finalT0 toTrans1 glossary targetLang
  let finalT1 := step2.1
  let glossarySkips := step2.2.1
  let stringsToTranslate := step2.2.2.1
  let glossaryData := step2.2.2.2
  -- Step 3: translate remaining strings via the API
  if stringsToTranslate = [] then
    .ok ⟨finalT1, ⟨0, 0, 0, []⟩, strings.length, memoryHits, glossarySkips,
      stringsToTranslate.length, memory⟩
  else
    match translateStrings api stringsToTranslate targetLang apiKey maxChunkSize none with
    | .error e => .error e
    | .ok result =>
      -- Step 4: post-process with glossary
      let apiTranslations :=
        match glossaryData with
        | some gd => finalizeTranslations result.translations gd.glossaryMap []
            gd.originalStrings
        | none => result.translations
      -- Step 5: store in memory for future use
      let memory' :=
        match memory with
        | some mem => some (mem.batchSet apiTranslations sourceLang targetLang)
        | none => none
      .ok ⟨assignAll finalT1 apiTranslations, result.tokensUsed, strings.length,
        memoryHits, glossarySkips, stringsToTranslate.length, memory'⟩

/-! ## String parser (`src/parser/polygot.parser.js`)

Each `RegExp` loop of the source is modelled by an explicit scanner with the
same leftmost-match / `lastIndex` semantics.  Scanners take a fuel argument
(always called with enough fuel to traverse the whole input); every step
advances the scan position by at least one character. -/

/-- The double-quote character. -/
def dquote : Char := Char.ofNat 34

/-- The single-quote character. -/
def squote : Char := Char.ofNat 39

/-- `[a-zA-Z0-9-]` (tag names, selector tags). -/
def isTagNameChar (c : Char) : Bool := c.isAlphanum || c = '-'

/-- `[a-zA-Z0-9-_]` (selector ids and classes). -/
def isIdentChar (c : Char) : Bool := c.isAlphanum || c = '-' || c = '_'

/-- Strip block comments: `code.replace(/\/\*[\s\S]*?\*\//g, "")` (non-greedy,
so each comment ends at the first following terminator; an unterminated
opener matches nothing). -/
def stripBlockComments : Str → Nat → Str
  | s, 0 => s
  | [], _ => []
  | c :: rest, fuel + 1 =>
    if c = '/' ∧ rest.head? = some '*' then
      match firstMatchIdx (str "*/") (rest.drop 1) with
      | some i => stripBlockComments ((rest.drop 1).drop (i + 2)) fuel
      | none => c :: rest
    else c :: stripBlockComments rest fuel

/-- Strip line comments: `code.replace(/\/\/.*/g, "")` (`.` stops at line
terminators). -/
def stripLineComments : Str → Nat → Str
  | s, 0 => s
  | [], _ => []
  | c :: rest, fuel + 1 =>
    if c = '/' ∧ rest.head? = some '/' then
      stripLineComments ((c :: rest).dropWhile (fun ch => ch ≠ '\n' ∧ ch ≠ '\r')) fuel
    else c :: stripLineComments rest fuel

/-- A parsed exclusion selector (`parseExcludeRules` output element). -/
structure ExcludeRule where
  tag : Option Str
  id : Option Str
  classes : List Str
deriving DecidableEq

/-- First match of `#([a-zA-Z0-9-_]+)` in `s`: position and captured name. -/
def findIdSelector : Str → Nat → Option (Nat × Str)
  | _, 0 => none
  | [], _ => none
  | c :: rest, fuel + 1 =>
    if c = '#' then
      let run := rest.takeWhile isIdentChar
      if run ≠ [] then some (0, run)
      else (findIdSelector rest fuel).map (fun p => (p.1 + 1, p.2))
    else (findIdSelector rest fuel).map (fun p => (p.1 + 1, p.2))

/-- All matches of `\.([a-zA-Z0-9-_]+)` in `s` (the class parts of a selector). -/
def scanClassSelectors : Str → Nat → List Str
  | _, 0 => []
  | [], _ => []
  | c :: rest, fuel + 1 =>
    if c = '.' then
      let run := rest.takeWhile isIdentChar
      if run ≠ [] then run :: scanClassSelectors (rest.drop run.length) fuel
      else scanClassSelectors rest fuel
    else scanClassSelectors rest fuel

/-- `parseExcludeRules`: parse each selector into tag / id / classes. -/
def parseExcludeRules (excludeTags : List Str) : List ExcludeRule :=
  excludeTags.map (fun selector =>
    let remaining0 := trim selector
    let tagRun := remaining0.takeWhile isTagNameChar
    let tag := if tagRun = [] then none else some (lowerStr tagRun)
    let remaining1 := remaining0.drop tagRun.length
    match findIdSelector remaining1 (remaining1.length + 1) with
    | some (i, idName) =>
      -- `remaining.replace(idMatch[0], "")` removes the matched `#name` text
      let remaining2 := remaining1.take i ++ remaining1.drop (i + 1 + idName.length)
      ⟨tag, some idName, scanClassSelectors remaining2 (remaining2.length + 1)⟩
    | none => ⟨tag, none, scanClassSelectors remaining1 (remaining1.length + 1)⟩)

/-- One ancestor entry on the open-tag stack of `shouldExcludeText`. -/
structure TagInfo where
  tag : Str
  id : Option Str
  classes : List Str
  position : Nat
deriving DecidableEq

/-- Match `lit \s* = \s* ["'] ([^"']+) ["']` at the start of `s` (the attribute
fragments of `shouldExcludeText`, case-insensitive on `lit`); returns the
captured value. -/
def attrValueAt (lit : Str) (s : Str) : Option Str :=
  if lowerStr (s.take lit.length) = lowerStr lit ∧ lit.length ≤ s.length then
    let r1 := (s.drop lit.length).dropWhile isWS
    match r1 with
    | c :: r2 =>
      if c = '=' then
        match r2.dropWhile isWS with
        | q :: r3 =>
          if q = dquote ∨ q = squote then
            let content := r3.takeWhile (fun ch => ch ≠ dquote ∧ ch ≠ squote)
            if content ≠ [] then
              match (r3.drop content.length).head? with
              | some q2 => if q2 = dquote ∨ q2 = squote then some content else none
              | none => none
            else none
          else none
        | [] => none
      else none
    | [] => none
  else none

/-- First match of `lit\s*=\s*["']([^"']+)["']` anywhere in `s`. -/
def findAttrValue (lit : Str) : Str → Nat → Option Str
  | _, 0 => none
  | [], _ => none
  | c :: rest, fuel + 1 =>
    match attrValueAt lit (c :: rest) with
    | some v => some v
    | none => findAttrValue lit rest fuel

/-- The tail `[^}]*["']([^"']+)["'][^}]*\}` of the dynamic-`className` regex,
with the leading `[^}]*` tried greedily (longest first), as the regex engine
backtracks. -/
def classNameExprTail (s : Str) : Option Str :=
  let maxN := (s.takeWhile (fun ch => ch ≠ '}')).length
  ((List.range (maxN + 1)).reverse).findSome? (fun n =>
    match s.drop n with
    | q :: r1 =>
      if q = dquote ∨ q = squote then
        let content := r1.takeWhile (fun ch => ch ≠ dquote ∧ ch ≠ squote)
        if content ≠ [] then
          match r1.drop content.length with
          | q2 :: r2 =>
            if q2 = dquote ∨ q2 = squote then
              let tl := r2.takeWhile (fun ch => ch ≠ '}')
              if (r2.drop tl.length).head? = some '}' then some content else none
            else none
          | [] => none
        else none
      else none
    | [] => none)

/-- Match `className\s*=\s*\{ ... \}` (dynamic JSX class) at the start of `s`. -/
def classNameExprAt (s : Str) : Option Str :=
  if lowerStr (s.take 9) = lowerStr (str "className") ∧ 9 ≤ s.length then
    match (s.drop 9).dropWhile isWS with
    | c :: r2 =>
      if c = '=' then
        match r2.dropWhile isWS with
        | b :: r3 => if b = '{' then classNameExprTail r3 else none
        | [] => none
      else none
    | [] => none
  else none

/-- First match of the dynamic-`className` regex anywhere in `s`. -/
def findClassNameExpr : Str → Nat → Option Str
  | _, 0 => none
  | [], _ => none
  | c :: rest, fuel + 1 =>
    match classNameExprAt (c :: rest) with
    | some v => some v
    | none => findClassNameExpr rest fuel

/-- `value.split(/\s+/).filter((c) => c.length > 0)`. -/
def splitWS : Str → Nat → List Str
  | _, 0 => []
  | s, fuel + 1 =>
    match s.dropWhile isWS with
    | [] => []
    | c :: rest =>
      let w := (c :: rest).takeWhile (fun ch => !isWS ch)
      w :: splitWS ((c :: rest).drop w.length) fuel

/-- One scanned tag token of `/<\/?([a-zA-Z0-9-]+)([^>]*)>/g`:
`(index, isClosing, lowercased name, attrs chunk)`. -/
def scanTagsFrom (code : Str) : Nat → Nat → List (Nat × Bool × Str × Str)
  | _, 0 => []
  | i, fuel + 1 =>
    if code.length ≤ i then []
    else if code.get? i = some '<' then
      let rest := code.drop (i + 1)
      let closing := rest.head? = some '/'
      let rest2 := if closing then rest.drop 1 else rest
      let name := rest2.takeWhile isTagNameChar
      if name = [] then scanTagsFrom code (i + 1) fuel
      else
        let attrs := (rest2.drop name.length).takeWhile (fun ch => ch ≠ '>')
        if (rest2.drop (name.length + attrs.length)).head? = some '>' then
          (i, decide closing, lowerStr name, attrs) ::
            scanTagsFrom code
              (i + 1 + (if closing then 1 else 0) + name.length + attrs.length + 1) fuel
        else scanTagsFrom code (i + 1) fuel
    else scanTagsFrom code (i + 1) fuel

/-- `/\/\s*>$/.test(fullTag)`: the attrs chunk ends in `/` plus whitespace. -/
def selfClosingAttrs (attrs : Str) : Bool :=
  (attrs.reverse.dropWhile isWS).head? = some '/'

/-- Parse one opening tag's attributes into a `TagInfo` (id, `class`,
`className`, dynamic `className={...}`). -/
def tagInfoOf (idx : Nat) (name attrs : Str) : TagInfo :=
  let idVal := findAttrValue (str "id") attrs (attrs.length + 1)
  let classes1 :=
    match findAttrValue (str "class") attrs (attrs.length + 1) with
    | some v => splitWS v (v.length + 1)
    | none => []
  let classes2 :=
    match findAttrValue (str "className") attrs (attrs.length + 1) with
    | some v => classes1 ++ splitWS v (v.length + 1)
    | none => classes1
  let classes3 :=
    match findClassNameExpr attrs (attrs.length + 1) with
    | some v => classes2 ++ splitWS v (v.length + 1)
    | none => classes2
  ⟨name, idVal, classes3, idx⟩

/-- Pop the nearest (last-pushed) open tag with the given name. -/
def removeLastTag (stack : List TagInfo) (name : Str) : List TagInfo :=
  let rec go : List TagInfo → List TagInfo
    | [] => []
    | t :: ts => if t.tag = name then ts else t :: go ts
  (go stack.reverse).reverse

/-- The stack of still-open ancestor tags at `position`: fold the scanned tag
tokens before `position` — closing tags pop, self-closing tags are skipped,
opening tags push. -/
def buildStack (code : Str) (position : Nat) : List TagInfo :=
  ((scanTagsFrom code 0 (code.length + 1)).takeWhile (fun t => t.1 < position)).foldl
    (fun stack t =>
      let (idx, closing, name, attrs) := t
      if closing then removeLastTag stack name
      else if selfClosingAttrs attrs then stack
      else stack ++ [tagInfoOf idx name attrs])
    []

/-- The body of the rule loop in `matchesExcludeRule`, for one rule. -/
def matchesOneRule (r : ExcludeRule) (t : TagInfo) : Bool :=
  if r.tag.isSome ∧ r.tag ≠ some t.tag then false
  else if r.tag.isSome ∧ r.id = none ∧ r.classes = [] then true
  else if r.id.isSome ∧ r.id ≠ t.id then false
  else if r.classes ≠ [] ∧ ¬(∀ c ∈ r.classes, c ∈ t.classes) then false
  else true

/-- `matchesExcludeRule(tagInfo, excludeRules)`. -/
def matchesExcludeRule (t : TagInfo) (rules : List ExcludeRule) : Bool :=
  rules.any (fun r => matchesOneRule r t)

/-- `shouldExcludeText(code, position, excludeRules)`. -/
def shouldExcludeText (code : Str) (position : Nat) (excludeRules : List ExcludeRule) :
    Bool :=
  if excludeRules = [] then false
  else (buildStack code position).any (fun t => matchesExcludeRule t excludeRules)

/-- Scan `/>([^<>{}]+)</g`: `(match index, text run)` pairs. -/
def scanTextNodes (code : Str) : Nat → Nat → List (Nat × Str)
  | _, 0 => []
  | i, fuel + 1 =>
    if code.length ≤ i then []
    else if code.get? i = some '>' then
      let run := (code.drop (i + 1)).takeWhile
        (fun c => c ≠ '<' ∧ c ≠ '>' ∧ c ≠ '{' ∧ c ≠ '}')
      if run ≠ [] ∧ code.get? (i + 1 + run.length) = some '<' then
        (i, run) :: scanTextNodes code (i + run.length + 2) fuel
      else scanTextNodes code (i + 1) fuel
    else scanTextNodes code (i + 1) fuel

/-- First match of `/<[^>]+\/>/` (a self-closing tag) in `s`:
`(index, match length)`. -/
def firstSelfClosingTag : Str → Nat → Option (Nat × Nat)
  | _, 0 => none
  | [], _ => none
  | c :: rest, fuel + 1 =>
    if c = '<' then
      let inner := rest.takeWhile (fun ch => ch ≠ '>')
      if (rest.drop inner.length).head? = some '>' ∧ 2 ≤ inner.length ∧
          inner.getLast? = some '/' then
        some (0, inner.length + 2)
      else (firstSelfClosingTag rest fuel).map (fun p => (p.1 + 1, p.2))
    else (firstSelfClosingTag rest fuel).map (fun p => (p.1 + 1, p.2))

/-- `rawText.split(/<[^>]+\/>/)`. -/
def splitSelfClosing : Str → Nat → List Str
  | s, 0 => [s]
  | s, fuel + 1 =>
    match firstSelfClosingTag s (s.length + 1) with
    | some (i, len) => s.take i :: splitSelfClosing (s.drop (i + len)) fuel
    | none => [s]

/-- Scan `/\{([^}]+)\}/g`: `(match index, expression body)` pairs. -/
def scanExprBlocks (code : Str) : Nat → Nat → List (Nat × Str)
  | _, 0 => []
  | i, fuel + 1 =>
    if code.length ≤ i then []
    else if code.get? i = some '{' then
      let run := (code.drop (i + 1)).takeWhile (fun c => c ≠ '}')
      if run ≠ [] ∧ code.get? (i + 1 + run.length) = some '}' then
        (i, run) :: scanExprBlocks code (i + run.length + 2) fuel
      else scanExprBlocks code (i + 1) fuel
    else scanExprBlocks code (i + 1) fuel

/-- Parse the body of a quoted literal after its opening quote:
`([^q\\]*(\\.[^q\\]*)*)` then the closing quote.  Returns the captured body
(escape sequences kept verbatim) and the number of characters consumed
including the closing quote.  A backslash at the end, or before a line
terminator (which `.` does not match), makes the whole literal fail. -/
def quotedBody (q : Char) : Str → Nat → Option (Str × Nat)
  | _, 0 => none
  | [], _ => none
  | c :: rest, fuel + 1 =>
    if c = q then some ([], 1)
    else if c = '\\' then
      match rest with
      | [] => none
      | d :: rest' =>
        if d = '\n' ∨ d = '\r' then none
        else (quotedBody q rest' fuel).map (fun p => (c :: d :: p.1, p.2 + 2))
    else (quotedBody q rest fuel).map (fun p => (c :: p.1, p.2 + 1))

/-- `expr.matchAll` for one of the three quoted-literal regexes: all captured
bodies, scanning left to right. -/
def scanQuoted (q : Char) : Str → Nat → List Str
  | _, 0 => []
  | [], _ => []
  | c :: rest, fuel + 1 =>
    if c = q then
      match quotedBody q rest (rest.length + 1) with
      | some (body, consumed) => body :: scanQuoted q (rest.drop consumed) fuel
      | none => scanQuoted q rest fuel
    else scanQuoted q rest fuel

/-- `expr.match(/`([^`]*)`/g)` with the backticks sliced off: the raw (escape-
unaware) template bodies. -/
def scanBacktickRaw : Str → Nat → List Str
  | _, 0 => []
  | [], _ => []
  | c :: rest, fuel + 1 =>
    if c = '`' then
      let body := rest.takeWhile (fun ch => ch ≠ '`')
      if (rest.drop body.length).head? = some '`' then
        body :: scanBacktickRaw (rest.drop (body.length + 1)) fuel
      else scanBacktickRaw rest fuel
    else scanBacktickRaw rest fuel

/-- First match of `/\$\{[^}]+\}/` in `s`: `(index, match length)`. -/
def firstInterpolation : Str → Nat → Option (Nat × Nat)
  | _, 0 => none
  | [], _ => none
  | c :: rest, fuel + 1 =>
    if c = '$' ∧ rest.head? = some '{' then
      let run := (rest.drop 1).takeWhile (fun ch => ch ≠ '}')
      if run ≠ [] ∧ ((rest.drop 1).drop run.length).head? = some '}' then
        some (0, run.length + 3)
      else (firstInterpolation rest fuel).map (fun p => (p.1 + 1, p.2))
    else (firstInterpolation rest fuel).map (fun p => (p.1 + 1, p.2))

/-- `template.split(/\$\{[^}]+\}/)`. -/
def splitTemplate : Str → Nat → List Str
  | s, 0 => [s]
  | s, fuel + 1 =>
    match firstInterpolation s (s.length + 1) with
    | some (i, len) => s.take i :: splitTemplate (s.drop (i + len)) fuel
    | none => [s]

/-- One token of a visible-attribute pattern: a literal character, or a `*`
wildcard (expanded by the source to `[a-zA-Z0-9\-]*`). -/
inductive AttrTok where
  | lit (c : Char)
  | star
deriving DecidableEq

/-- Compile a user attribute name into pattern tokens. -/
def attrToksOf (a : Str) : List AttrTok :=
  a.map (fun c => if c = '*' then AttrTok.star else AttrTok.lit c)

/-- Characters matched by the `*` wildcard class. -/
def isStarChar (c : Char) : Bool := c.isAlphanum || c = '-'

/-- All lengths of text a token pattern can consume from `s`, in the regex
engine's preference order (greedy wildcards first); case-insensitive. -/
def matchToksLens : List AttrTok → Str → List Nat
  | [], _ => [0]
  | AttrTok.lit c :: ts, s =>
    match s with
    | [] => []
    | x :: xs =>
      if x.toLower = c.toLower then (matchToksLens ts xs).map (· + 1) else []
  | AttrTok.star :: ts, s =>
    let m := (s.takeWhile isStarChar).length
    ((List.range (m + 1)).reverse).flatMap
      (fun n => (matchToksLens ts (s.drop n)).map (· + n))

/-- Match `\s*=\s*["']([^"']+)["']` at the start of `s`:
`(consumed length, captured value)`. -/
def attrRestAt (s : Str) : Option (Nat × Str) :=
  let w1 := (s.takeWhile isWS).length
  match s.drop w1 with
  | c :: r2 =>
    if c = '=' then
      let w2 := (r2.takeWhile isWS).length
      match r2.drop w2 with
      | q :: r3 =>
        if q = dquote ∨ q = squote then
          let content := r3.takeWhile (fun ch => ch ≠ dquote ∧ ch ≠ squote)
          if content ≠ [] then
            match (r3.drop content.length).head? with
            | some q2 =>
              if q2 = dquote ∨ q2 = squote then
                some (w1 + 1 + w2 + 1 + content.length + 1, content)
              else none
            | none => none
          else none
        else none
      | [] => none
    else none
  | [] => none

/-- Try the whole visible-attribute regex at the start of `s`: alternatives in
order, then the `=` and quoted value; returns `(match length, value)`. -/
def tryAttrsAt (pats : List (List AttrTok)) (s : Str) : Option (Nat × Str) :=
  pats.findSome? (fun p =>
    (matchToksLens p s).findSome? (fun n =>
      (attrRestAt (s.drop n)).map (fun r => (n + r.1, r.2))))

/-- Scan the visible-attribute regex over `code`: `(match index, value)` pairs. -/
def scanAttrs (pats : List (List AttrTok)) (code : Str) : Nat → Nat → List (Nat × Str)
  | _, 0 => []
  | i, fuel + 1 =>
    if code.length ≤ i then []
    else
      match tryAttrsAt pats (code.drop i) with
      | some (len, v) => (i, v) :: scanAttrs pats code (i + len) fuel
      | none => scanAttrs pats code (i + 1) fuel

/-- The fixed HTML entity decoding table, in source order. -/
def entityMap : List (Str × Str) :=
  [(str "&nbsp;", str " "), (str "&amp;", str "&"), (str "&lt;", str "<"),
   (str "&gt;", str ">"), (str "&quot;", [dquote]), (str "&#39;", [squote])]

/-- Decode the fixed set of HTML entities (each a global replace, in order). -/
def decodeEntities (s : Str) : Str :=
  entityMap.foldl (fun acc p => replaceAll p.1 p.2 acc) s

/-- The final filter: keep non-empty, non-whitespace-only strings that do not
match `^[{}()\[\];,]+$`. -/
def keepFinal (s : Str) : Bool :=
  !s.isEmpty && !(s.all isWS) &&
    !(!s.isEmpty && s.all (fun c =>
      c = '{' || c = '}' || c = '(' || c = ')' || c = '[' || c = ']' ||
      c = ';' || c = ','))

/-- `polygotParser(code, visibleAttributes, excludeTags)`. -/
def polygotParser (code0 : Str) (visibleAttributes : List Str) (excludeTags : List Str) :
    List Str :=
  let code := stripLineComments (stripBlockComments code0 code0.length) code0.length
  let excludeRules := parseExcludeRules excludeTags
  -- text content between tags
  let s1 := (scanTextNodes code 0 (code.length + 1)).foldl
    (fun acc m =>
      (splitSelfClosing m.2 (m.2.length + 1)).foldl
        (fun acc2 seg =>
          let text := trim seg
          if text ≠ [] ∧ ¬(text.all isWS = true) ∧
              shouldExcludeText code m.1 excludeRules = false then
            addStr acc2 text
          else acc2)
        acc)
    []
  -- JSX expressions
  let s2 := (scanExprBlocks code 0 (code.length + 1)).foldl
    (fun acc m =>
      if shouldExcludeText code m.1 excludeRules then acc
      else
        let expr := m.2
        let lits := scanQuoted dquote expr (expr.length + 1) ++
          scanQuoted squote expr (expr.length + 1) ++
          scanQuoted '`' expr (expr.length + 1)
        let acc2 := lits.foldl
          (fun a lit => let t := trim lit; if t ≠ [] then addStr a t else a) acc
        (scanBacktickRaw expr (expr.length + 1)).foldl
          (fun a tpl =>
            (splitTemplate tpl (tpl.length + 1)).foldl
              (fun a2 part => let t := trim part; if t ≠ [] then addStr a2 t else a2) a)
          acc2)
    s1
  -- visible attribute values
  let s3 :=
    if visibleAttributes ≠ [] then
      (scanAttrs (visibleAttributes.map attrToksOf) code 0 (code.length + 1)).foldl
        (fun acc m =>
          let text := trim m.2
          if text ≠ [] ∧ shouldExcludeText code m.1 excludeRules = false then
            addStr acc text
          else acc)
        s2
    else s2
  dedupFirst ((s3.map decodeEntities).filter keepFinal)

/-! ## Association-list lemmas -/

theorem setK_cons {β : Type} (a k : Str) (b v : β) (m : List (Str × β)) :
    setK ((a, b) :: m) k v = if a = k then (k, v) :: m else (a, b) :: setK m k v := rfl

theorem getK_cons {β : Type} (a k : Str) (b : β) (m : List (Str × β)) :
    getK ((a, b) :: m) k = if a = k then some b else getK m k := rfl

theorem getK_setK_self {β : Type} (m : List (Str × β)) (k : Str) (v : β) :
    getK (setK m k v) k = some v := by
  induction m with
  | nil =>
    show getK [(k, v)] k = some v
    rw [getK_cons, if_pos rfl]
  | cons p m ih =>
    obtain ⟨a, b⟩ := p
    rw [setK_cons]
    by_cases h : a = k
    · rw [if_pos h, getK_cons, if_pos rfl]
    · rw [if_neg h, getK_cons, if_neg h, ih]

theorem getK_setK_ne {β : Type} (m : List (Str × β)) (k k' : Str) (v : β)
    (h : k' ≠ k) : getK (setK m k v) k' = getK m k' := by
  induction m with
  | nil =>
    show getK [(k, v)] k' = none
    rw [getK_cons, if_neg (fun hk => h hk.symm)]
    rfl
  | cons p m ih =>
    obtain ⟨a, b⟩ := p
    rw [setK_cons]
    by_cases ha : a = k
    · subst ha
      rw [if_pos rfl, getK_cons, getK_cons, if_neg (fun hk => h hk.symm),
        if_neg (fun hk => h hk.symm)]
    · rw [if_neg ha, getK_cons, getK_cons]
      by_cases ha' : a = k'
      · rw [if_pos ha', if_pos ha']
      · rw [if_neg ha', if_neg ha', ih]

theorem mem_keysOf_iff {β : Type} (m : List (Str × β)) (k : Str) :
    k ∈ keysOf m ↔ ∃ p ∈ m, p.1 = k := by
  unfold keysOf
  rw [List.mem_map]

theorem mem_keysOf_setK {β : Type} (m : List (Str × β)) (k a : Str) (v : β) :
    a ∈ keysOf (setK m k v) ↔ a = k ∨ a ∈ keysOf m := by
  induction m with
  | nil =>
    show a ∈ [k] ↔ a = k ∨ a ∈ ([] : List Str)
    simp
  | cons p m ih =>
    obtain ⟨x, b⟩ := p
    rw [setK_cons]
    by_cases h : x = k
    · rw [if_pos h]
      subst h
      show a ∈ x :: keysOf m ↔ a = x ∨ a ∈ x :: keysOf m
      rw [List.mem_cons]
      tauto
    · rw [if_neg h]
      show a ∈ x :: keysOf (setK m k v) ↔ a = k ∨ a ∈ x :: keysOf m
      rw [List.mem_cons, List.mem_cons, ih]
      tauto

theorem hasK_iff_mem_keysOf {β : Type} (m : List (Str × β)) (k : Str) :
    hasK m k = true ↔ k ∈ keysOf m := by
  induction m with
  | nil =>
    constructor
    · intro h; cases h
    · intro h; cases h
  | cons p m ih =>
    obtain ⟨a, b⟩ := p
    show (getK ((a, b) :: m) k).isSome = true ↔ k ∈ a :: keysOf m
    rw [getK_cons, List.mem_cons]
    by_cases h : a = k
    · rw [if_pos h]
      subst h
      simp
    · rw [if_neg h]
      rw [show ((getK m k).isSome = true ↔ k ∈ keysOf m) from ih]
      constructor
      · exact Or.inr
      · rintro (hk | hk)
        · exact absurd hk.symm h
        · exact hk

theorem length_setK_of_not_mem {β : Type} (m : List (Str × β)) (k : Str) (v : β)
    (h : k ∉ keysOf m) : (setK m k v).length = m.length + 1 := by
  induction m with
  | nil => rfl
  | cons p m ih =>
    obtain ⟨a, b⟩ := p
    have h1 : ¬(k = a) := fun hk => h (by rw [hk]; exact List.mem_cons_self _ _)
    have h2 : k ∉ keysOf m := fun hk => h (List.mem_cons_of_mem _ hk)
    rw [setK_cons, if_neg (fun hak => h1 hak.symm), List.length_cons, List.length_cons,
      ih h2]

/-- Folding assignments into an accumulator: a key is present in the result iff
it was present in the accumulator or appears as a key of the assigned list. -/
theorem mem_keys_foldl_setK {β γ : Type} (f : Str × β → γ) (ts : List (Str × β))
    (acc : List (Str × γ)) (k : Str) :
    k ∈ keysOf (ts.foldl (fun a p => setK a p.1 (f p)) acc) ↔
      k ∈ keysOf acc ∨ ∃ p ∈ ts, p.1 = k := by
  induction ts generalizing acc with
  | nil =>
    rw [List.foldl_nil]
    constructor
    · exact Or.inl
    · rintro (hacc | ⟨p, hp, rfl⟩)
      · exact hacc
      · cases hp
  | cons p rest ih =>
    rw [List.foldl_cons, ih, mem_keysOf_setK]
    constructor
    · rintro (⟨rfl | hacc⟩ | ⟨q, hq, rfl⟩)
      · exact Or.inr ⟨p, List.mem_cons_self _ _, rfl⟩
      · exact Or.inl ‹k ∈ keysOf acc›
      · exact Or.inr ⟨q, List.mem_cons_of_mem _ hq, rfl⟩
    · rintro (hacc | ⟨q, hq, rfl⟩)
      · exact Or.inl (Or.inr hacc)
      · rcases List.mem_cons.mp hq with hq1 | hq2
        · subst hq1; exact Or.inl (Or.inl rfl)
        · exact Or.inr ⟨q, hq2, rfl⟩

/-- C10.  For every input translations object and every glossary map,
`postprocessTranslations` returns an object whose key set is exactly the key
set of the input: placeholder restoration rewrites only values, never keys, so
a key that still contains a placeholder token is left as-is as a key. -/
theorem claim_C10_postprocess_preserves_keys
    (translations : List (Str × Str)) (gm : List (Str × PlaceholderInfo)) (k : Str) :
    k ∈ keysOf (postprocessTranslations translations gm) ↔ k ∈ keysOf translations := by
  unfold postprocessTranslations
  rw [mem_keys_foldl_setK (fun p => restorePlaceholders gm p.2) translations [] k]
  constructor
  · rintro (hnil | ⟨p, hp, rfl⟩)
    · cases hnil
    · exact (mem_keysOf_iff translations p.1).mpr ⟨p, hp, rfl⟩
  · intro hk
    obtain ⟨p, hp, rfl⟩ := (mem_keysOf_iff translations k).mp hk
    exact Or.inr ⟨p, hp, rfl⟩

/-! ## Glossary whole-string skip (claim C5) -/

/-- How `filterStrings` resolves one string: `some v` means it is skip-resolved
to `v` without the API, `none` means it still needs API translation.  This is
exactly the branching of the loop body. -/
def dispositionOf (g : GlossaryManager) (targetLang s : Str) : Option Str :=
  match glossLookup g (trim s) with
  | some e => if e.doNotTranslate then some e.term else truthyGet e.translations targetLang
  | none => none

theorem filterStep_skip_eq (g : GlossaryManager) (tl : Str)
    (acc : List Str × List (Str × Str)) (t : Str) :
    (filterStep g tl acc t).2 =
      match dispositionOf g tl t with
      | some v => setK acc.2 t v
      | none => acc.2 := by
  unfold filterStep dispositionOf
  cases glossLookup g (trim t) with
  | none => rfl
  | some e =>
    by_cases hd : e.doNotTranslate = true
    · simp [hd]
    · simp only [Bool.not_eq_true] at hd
      simp only [hd]
      cases truthyGet e.translations tl <;> simp

theorem filterStep_need_eq (g : GlossaryManager) (tl : Str)
    (acc : List Str × List (Str × Str)) (t : Str) :
    (filterStep g tl acc t).1 =
      match dispositionOf g tl t with
      | some _ => acc.1
      | none => acc.1 ++ [t] := by
  unfold filterStep dispositionOf
  cases glossLookup g (trim t) with
  | none => rfl
  | some e =>
    by_cases hd : e.doNotTranslate = true
    · simp [hd]
    · simp only [Bool.not_eq_true] at hd
      simp only [hd]
      cases truthyGet e.translations tl <;> simp

theorem getK_filterFold_of_not_mem (g : GlossaryManager) (tl : Str) (strings : List Str)
    (s : Str) (hs : s ∉ strings) (acc : List Str × List (Str × Str)) :
    getK (strings.foldl (filterStep g tl) acc).2 s = getK acc.2 s := by
  induction strings generalizing acc with
  | nil => rfl
  | cons t rest ih =>
    have hne : s ≠ t := fun h => hs (h ▸ List.mem_cons_self t rest)
    have hrest : s ∉ rest := fun h => hs (List.mem_cons_of_mem _ h)
    rw [List.foldl_cons, ih hrest]
    rw [filterStep_skip_eq]
    cases dispositionOf g tl t with
    | none => rfl
    | some v => exact getK_setK_ne _ _ _ _ hne

theorem mem_need_filterFold_mono (g : GlossaryManager) (tl : Str) (strings : List Str)
    (x : Str) (acc : List Str × List (Str × Str)) (hx : x ∈ acc.1) :
    x ∈ (strings.foldl (filterStep g tl) acc).1 := by
  induction strings generalizing acc with
  | nil => exact hx
  | cons t rest ih =>
    rw [List.foldl_cons]
    apply ih
    rw [filterStep_need_eq]
    cases dispositionOf g tl t with
    | none => exact List.mem_append_left _ hx
    | some v => exact hx

theorem filterFold_skip_of (g : GlossaryManager) (tl : Str) (strings : List Str)
    (s v : Str) (hs : s ∈ strings) (hd : dispositionOf g tl s = some v)
    (acc : List Str × List (Str × Str)) :
    getK (strings.foldl (filterStep g tl) acc).2 s = some v := by
  induction strings generalizing acc with
  | nil => cases hs
  | cons t rest ih =>
    rw [List.foldl_cons]
    by_cases hst : s ∈ rest
    · exact ih hst _
    · have hts : s = t := by
        rcases List.mem_cons.mp hs with h | h
        · exact h
        · exact absurd h hst
      subst hts
      rw [getK_filterFold_of_not_mem g tl rest s hst]
      rw [filterStep_skip_eq, hd]
      exact getK_setK_self _ _ _

theorem filterFold_need_of (g : GlossaryManager) (tl : Str) (strings : List Str)
    (s : Str) (hs : s ∈ strings) (hd : dispositionOf g tl s = none)
    (acc : List Str × List (Str × Str)) :
    s ∈ (strings.foldl (filterStep g tl) acc).1 := by
  induction strings generalizing acc with
  | nil => cases hs
  | cons t rest ih =>
    rw [List.foldl_cons]
    by_cases hst : s ∈ rest
    · exact ih hst _
    · have hts : s = t := by
        rcases List.mem_cons.mp hs with h | h
        · exact h
        · exact absurd h hst
      subst hts
      apply mem_need_filterFold_mono
      rw [filterStep_need_eq, hd]
      exact List.mem_append_right _ (List.mem_singleton.mpr rfl)

/-- The glossary of the spec's running example:
`add("Acme", {}, { doNotTranslate: true })` (`caseSensitive` defaults to true). -/
def acmeEntry : GlossaryEntry := ⟨str "Acme", [], true, true⟩

/-- The glossary manager holding only the `Acme` entry. -/
def acmeGloss : GlossaryManager := ⟨[(str "Acme", acmeEntry)]⟩

/-- C5.  Whole-string skip: a string whose trimmed text resolves to a glossary
entry (`get(trimmed, true) || get(trimmed, false)`) is resolved without the
API — a `doNotTranslate` entry maps it to the term itself, an entry with a
(truthy) translation for the target language maps it to that translation, and
an entry with neither leaves the string among the strings still needing API
translation; and concretely, for the glossary `{term: "Acme", doNotTranslate:
true}` and input `["Acme"]`, `prepareForTranslation` returns `stringsForAPI =
[]` and `skipTranslation = {"Acme": "Acme"}`. -/
theorem claim_C5_whole_string_skip (g : GlossaryManager) (targetLang : Str)
    (strings : List Str) (s : Str) (e : GlossaryEntry)
    (hs : s ∈ strings) (he : glossLookup g (trim s) = some e) :
    (e.doNotTranslate = true →
      getK (g.prepareForTranslation strings targetLang).skipTranslation s = some e.term) ∧
    (e.doNotTranslate = false →
      ∀ tr, truthyGet e.translations targetLang = some tr →
        getK (g.prepareForTranslation strings targetLang).skipTranslation s = some tr) ∧
    (e.doNotTranslate = false → truthyGet e.translations targetLang = none →
      s ∈ (g.prepareForTranslation strings targetLang).originalStrings) ∧
    ((acmeGloss.prepareForTranslation [str "Acme"] (str "es")).stringsForAPI = [] ∧
      (acmeGloss.prepareForTranslation [str "Acme"] (str "es")).skipTranslation =
        [(str "Acme", str "Acme")]) := by
  have hskip : (g.prepareForTranslation strings targetLang).skipTranslation =
      (g.filterStrings strings targetLang).2 := rfl
  have hneed : (g.prepareForTranslation strings targetLang).originalStrings =
      (g.filterStrings strings targetLang).1 := rfl
  refine ⟨?_, ?_, ?_, by decide, by decide⟩
  · intro hd
    rw [hskip]
    exact filterFold_skip_of g targetLang strings s e.term hs
      (by unfold dispositionOf; rw [he]; simp [hd]) _
  · intro hd tr htr
    rw [hskip]
    exact filterFold_skip_of g targetLang strings s tr hs
      (by unfold dispositionOf; rw [he]; simp [hd, htr]) _
  · intro hd htr
    rw [hneed]
    exact filterFold_need_of g targetLang strings s hs
      (by unfold dispositionOf; rw [he]; simp [hd, htr]) _

/-- Witness for C5 at the concrete example: the `Acme` string is in the input,
resolves to the `Acme` entry, and is skip-mapped to itself. -/
theorem claim_C5_whole_string_skip_witness :
    getK (acmeGloss.prepareForTranslation [str "Acme"] (str "es")).skipTranslation
      (str "Acme") = some (str "Acme") :=
  (claim_C5_whole_string_skip acmeGloss (str "es") [str "Acme"] (str "Acme") acmeEntry
    (List.mem_singleton.mpr rfl) (by decide)).1 (by decide)

/-! ## Memory round trip (claim C6) -/

/-- A store whose hash function maps everything to the same key: every lookup
collides.  Collision safety must hold for it like for SHA-256. -/
def constHashStore : TranslationMemoryStore := ⟨fun _ => [], []⟩

/-- C6 counterexample.  `set` stores `translation.trim()`, so `store(s, t, en,
es)` followed by `lookup(s, en, es)` returns the trimmed translation, not `t`
itself: with `t = " hola "` the lookup returns `"hola"`. -/
theorem claim_C6_memory_round_trip_cex :
    (constHashStore.set (str "a") (str " hola ") (str "en") (str "es")).get
        (str "a") (str "en") (str "es") ≠ some (str " hola ") ∧
    (constHashStore.set (str "a") (str " hola ") (str "en") (str "es")).get
        (str "a") (str "en") (str "es") = some (str "hola") := by
  constructor
  · decide
  · decide

/-- C6 (amended).  `store(s, t, en, es)` followed by `lookup(s, en, es)` returns
`trim t` (hence `t` itself whenever `t` carries no surrounding whitespace);
a lookup whose generated key is absent from the cache returns null; and a
lookup whose key hits an entry whose stored exact trimmed source text differs
from the trimmed lookup text is treated as a miss and returns null — for every
hash function, so hash collisions never leak the colliding entry's
translation. -/
theorem claim_C6_memory_round_trip (st : TranslationMemoryStore) (s t sl tl : Str)
    (e : MemoryEntry) :
    ((st.set s t sl tl).get s sl tl = some (trim t)) ∧
    (getK st.cache (st.generateKey s sl tl) = none → st.get s sl tl = none) ∧
    (getK st.cache (st.generateKey s sl tl) = some e → e.sourceText ≠ trim s →
      st.get s sl tl = none) := by
  refine ⟨?_, ?_, ?_⟩
  · have hcache : getK (st.set s t sl tl).cache
        ((st.set s t sl tl).generateKey s sl tl) = some ⟨trim s, trim t, sl, tl⟩ :=
      getK_setK_self _ _ _
    unfold TranslationMemoryStore.get
    rw [hcache]
    show (if trim s = trim s then some (trim t) else none) = some (trim t)
    rw [if_pos rfl]
  · intro hnone
    unfold TranslationMemoryStore.get
    rw [hnone]
  · intro he hne
    unfold TranslationMemoryStore.get
    rw [he]
    show (if e.sourceText = trim s then some e.translation else none) = none
    rw [if_neg hne]

/-- Witness for C6: a concrete round trip, a concrete unseen lookup, and a
concrete hash collision (constant hash) answered as a miss. -/
theorem claim_C6_memory_round_trip_witness :
    ((constHashStore.set (str "ab") (str "X") (str "en") (str "es")).get
        (str "ab") (str "en") (str "es") = some (str "X")) ∧
    (constHashStore.get (str "q") (str "en") (str "es") = none) ∧
    ((constHashStore.set (str "ab") (str "X") (str "en") (str "es")).get
        (str "cd") (str "en") (str "es") = none) := by
  refine ⟨?_, ?_, ?_⟩
  · exact (claim_C6_memory_round_trip constHashStore (str "ab") (str "X") (str "en")
      (str "es") ⟨[], [], [], []⟩).1
  · exact (claim_C6_memory_round_trip constHashStore (str "q") [] (str "en")
      (str "es") ⟨[], [], [], []⟩).2.1 rfl
  · exact (claim_C6_memory_round_trip
      (constHashStore.set (str "ab") (str "X") (str "en") (str "es"))
      (str "cd") [] (str "en") (str "es") ⟨str "ab", str "X", str "en", str "es"⟩).2.2
      (by decide) (by decide)

/-! ## Fail-fast validation (claim C9) -/

/-- A capability that translates every string to itself with zero usage. -/
def apiIdentity : Api := fun chunk => some (chunk.map (fun s => (s, s)), ⟨0, 0, 0⟩)

/-- C9.  `translateStrings` fails synchronously and independently of the
translation capability: an unsupported target language yields
`UnsupportedLanguage` carrying the list of valid codes (checked first), an
empty strings array yields `InvalidInput`, an absent (falsy) API key yields
`MissingCredential`; and when all three validations pass, no error is raised —
the call returns a result. -/
theorem claim_C9_fail_fast_validation (api : Api) (strings : List Str)
    (targetLanguage apiKey : Str) (maxChunkSize : Nat)
    (glossary : Option GlossaryManager) :
    (getK SUPPORTED_LANGUAGES targetLanguage = none →
      translateStrings api strings targetLanguage apiKey maxChunkSize glossary =
        .error (.unsupportedLanguage (keysOf SUPPORTED_LANGUAGES))) ∧
    ((getK SUPPORTED_LANGUAGES targetLanguage).isSome = true → strings = [] →
      translateStrings api strings targetLanguage apiKey maxChunkSize glossary =
        .error .invalidInput) ∧
    ((getK SUPPORTED_LANGUAGES targetLanguage).isSome = true → strings ≠ [] →
      apiKey = [] →
      translateStrings api strings targetLanguage apiKey maxChunkSize glossary =
        .error .missingCredential) ∧
    ((getK SUPPORTED_LANGUAGES targetLanguage).isSome = true → strings ≠ [] →
      apiKey ≠ [] →
      ∃ r, translateStrings api strings targetLanguage apiKey maxChunkSize glossary =
        .ok r) := by
  refine ⟨?_, ?_, ?_, ?_⟩
  · intro hnone
    unfold translateStrings
    rw [hnone]
  · intro hsome hempty
    obtain ⟨name, hname⟩ := Option.isSome_iff_exists.mp hsome
    subst hempty
    unfold translateStrings
    simp only [hname, if_true, eq_self_iff_true]
  · intro hsome hne hkey
    obtain ⟨name, hname⟩ := Option.isSome_iff_exists.mp hsome
    subst hkey
    unfold translateStrings
    simp only [hname, if_neg hne, if_true, eq_self_iff_true]
  · intro hsome hne hkey
    obtain ⟨name, hname⟩ := Option.isSome_iff_exists.mp hsome
    unfold translateStrings
    simp only [hname, if_neg hne, if_neg hkey]
    cases glossary with
    | none =>
      by_cases hu : uniqueOf strings = []
      · simp only [hu, if_true, eq_self_iff_true]
        exact ⟨_, rfl⟩
      · simp only [if_neg hu]
        exact ⟨_, rfl⟩
    | some g =>
      by_cases hu : (g.prepareForTranslation (uniqueOf strings) targetLanguage).stringsForAPI = []
      · simp only [hu, if_true, eq_self_iff_true]
        exact ⟨_, rfl⟩
      · simp only [if_neg hu]
        exact ⟨_, rfl⟩

/-- Witness for C9: each validation outcome at a concrete input. -/
theorem claim_C9_fail_fast_validation_witness :
    (translateStrings apiIdentity [str "Hi"] (str "xx") (str "k") 50 none =
      .error (.unsupportedLanguage (keysOf SUPPORTED_LANGUAGES))) ∧
    (translateStrings apiIdentity [] (str "es") (str "k") 50 none =
      .error .invalidInput) ∧
    (translateStrings apiIdentity [str "Hi"] (str "es") [] 50 none =
      .error .missingCredential) ∧
    (∃ r, translateStrings apiIdentity [str "Hi"] (str "es") (str "k") 50 none = .ok r) := by
  refine ⟨?_, ?_, ?_, ?_⟩
  · exact (claim_C9_fail_fast_validation apiIdentity [str "Hi"] (str "xx") (str "k")
      50 none).1 (by decide)
  · exact (claim_C9_fail_fast_validation apiIdentity [] (str "es") (str "k")
      50 none).2.1 (by decide) rfl
  · exact (claim_C9_fail_fast_validation apiIdentity [str "Hi"] (str "es") []
      50 none).2.2.1 (by decide) (by decide) rfl
  · exact (claim_C9_fail_fast_validation apiIdentity [str "Hi"] (str "es") (str "k")
      50 none).2.2.2 (by decide) (by decide) (by decide)

/-! ## Zero-cost path (claim C7) -/

/-- A memory store holding one translation, `Hello → Hola` for `en → es`,
with an injective (identity) hash. -/
def memHello : TranslationMemoryStore :=
  (TranslationMemoryStore.mk (fun s => s) []).set (str "Hello") (str "Hola")
    (str "en") (str "es")

/-- C7.  If after the memory lookup and the glossary filtering the remaining
work set is empty, the workflow returns immediately with token usage exactly
`{input: 0, output: 0, total: 0}` (and no per-chunk records), with the
translations mapping holding exactly the memory- and glossary-resolved
entries, `fromAPI = 0`, and an untouched memory store — for every translation
capability `api`, which is therefore never invoked. -/
theorem claim_C7_zero_cost_path (api : Api) (strings : List Str)
    (targetLang apiKey : Str) (memory : Option TranslationMemoryStore)
    (glossary : Option GlossaryManager) (sourceLang : Str) (maxChunkSize : Nat)
    (h : (wfGlossaryStage (wfMemoryStage strings memory sourceLang targetLang).1
        (wfMemoryStage strings memory sourceLang targetLang).2.2 glossary
        targetLang).2.2.1 = []) :
    translateWithMemoryAndGlossary api strings targetLang apiKey memory glossary
        sourceLang maxChunkSize =
      .ok ⟨(wfGlossaryStage (wfMemoryStage strings memory sourceLang targetLang).1
              (wfMemoryStage strings memory sourceLang targetLang).2.2 glossary
              targetLang).1,
           ⟨0, 0, 0, []⟩, strings.length,
           (wfMemoryStage strings memory sourceLang targetLang).2.1,
           (wfGlossaryStage (wfMemoryStage strings memory sourceLang targetLang).1
              (wfMemoryStage strings memory sourceLang targetLang).2.2 glossary
              targetLang).2.1,
           0, memory⟩ := by
  unfold translateWithMemoryAndGlossary
  simp only [h, if_true, eq_self_iff_true, List.length_nil]

/-- Witness for C7: memory resolves `Hello`, the glossary resolves `Acme`, the
work set is empty, and the call returns the two local translations with zero
token usage. -/
theorem claim_C7_zero_cost_path_witness :
    translateWithMemoryAndGlossary apiIdentity [str "Hello", str "Acme"] (str "es")
        (str "k") (some memHello) (some acmeGloss) (str "en") 50 =
      .ok ⟨[(str "Hello", str "Hola"), (str "Acme", str "Acme")], ⟨0, 0, 0, []⟩,
           2, 1, 1, 0, some memHello⟩ :=
  claim_C7_zero_cost_path apiIdentity [str "Hello", str "Acme"] (str "es") (str "k")
    (some memHello) (some acmeGloss) (str "en") 50 rfl

/-! ## Provenance counts (claim C2) -/

theorem batchGetStep_none (st : TranslationMemoryStore) (sl tl : Str)
    (acc : List (Str × Str) × List Str) (t : Str) (hg : st.get t sl tl = none) :
    batchGetStep st sl tl acc t = (acc.1, acc.2 ++ [t]) := by
  unfold batchGetStep
  rw [hg]

theorem batchGetStep_empty (st : TranslationMemoryStore) (sl tl : Str)
    (acc : List (Str × Str) × List Str) (t : Str) (hg : st.get t sl tl = some []) :
    batchGetStep st sl tl acc t = (acc.1, acc.2 ++ [t]) := by
  unfold batchGetStep
  rw [hg]
  show (if ([] : Str) = [] then (acc.1, acc.2 ++ [t]) else (setK acc.1 t [], acc.2)) = _
  rw [if_pos rfl]

theorem batchGetStep_hit (st : TranslationMemoryStore) (sl tl : Str)
    (acc : List (Str × Str) × List Str) (t tr : Str) (hg : st.get t sl tl = some tr)
    (htr : tr ≠ []) : batchGetStep st sl tl acc t = (setK acc.1 t tr, acc.2) := by
  unfold batchGetStep
  rw [hg]
  show (if tr = [] then (acc.1, acc.2 ++ [t]) else (setK acc.1 t tr, acc.2)) = _
  rw [if_neg htr]

theorem batchGet_fold_partition (st : TranslationMemoryStore) (sl tl : Str)
    (texts : List Str) (acc : List (Str × Str) × List Str)
    (hnd : texts.Nodup) (hfresh : ∀ t ∈ texts, t ∉ keysOf acc.1) :
    (texts.foldl (batchGetStep st sl tl) acc).1.length +
      (texts.foldl (batchGetStep st sl tl) acc).2.length =
      acc.1.length + acc.2.length + texts.length := by
  induction texts generalizing acc with
  | nil => simp
  | cons t rest ih =>
    obtain ⟨htr, hndr⟩ := List.nodup_cons.mp hnd
    have ht : t ∉ keysOf acc.1 := hfresh t (List.mem_cons_self _ _)
    have hfr : ∀ t' ∈ rest, t' ∉ keysOf acc.1 :=
      fun t' ht' => hfresh t' (List.mem_cons_of_mem _ ht')
    rw [List.foldl_cons]
    cases hg : st.get t sl tl with
    | none =>
      rw [batchGetStep_none st sl tl acc t hg, ih (acc.1, acc.2 ++ [t]) hndr hfr]
      simp only [List.length_append, List.length_cons, List.length_nil]
      omega
    | some tr =>
      by_cases htr0 : tr = []
      · subst htr0
        rw [batchGetStep_empty st sl tl acc t hg, ih (acc.1, acc.2 ++ [t]) hndr hfr]
        simp only [List.length_append, List.length_cons, List.length_nil]
        omega
      · rw [batchGetStep_hit st sl tl acc t tr hg htr0]
        rw [ih (setK acc.1 t tr, acc.2) hndr ?_]
        · show (setK acc.1 t tr).length + acc.2.length + rest.length = _
          rw [length_setK_of_not_mem _ _ _ ht]
          simp only [List.length_cons]
          omega
        · intro t' ht'
          rw [mem_keysOf_setK]
          rintro (rfl | hmem)
          · exact htr ht'
          · exact hfr t' ht' hmem

theorem batchGet_fold_missing_nodup (st : TranslationMemoryStore) (sl tl : Str)
    (texts : List Str) (acc : List (Str × Str) × List Str)
    (hnd : texts.Nodup) (hacc : acc.2.Nodup) (hdisj : ∀ t ∈ texts, t ∉ acc.2) :
    (texts.foldl (batchGetStep st sl tl) acc).2.Nodup := by
  induction texts generalizing acc with
  | nil => exact hacc
  | cons t rest ih =>
    obtain ⟨htr, hndr⟩ := List.nodup_cons.mp hnd
    have hdt : t ∉ acc.2 := hdisj t (List.mem_cons_self _ _)
    have hdr : ∀ t' ∈ rest, t' ∉ acc.2 :=
      fun t' ht' => hdisj t' (List.mem_cons_of_mem _ ht')
    have happ : (acc.2 ++ [t]).Nodup := by
      rw [List.nodup_append]
      exact ⟨hacc, List.nodup_singleton t, by
        intro x hx hxt
        rw [List.mem_singleton] at hxt
        exact hdt (hxt ▸ hx)⟩
    have hdisj' : ∀ t' ∈ rest, t' ∉ acc.2 ++ [t] := by
      intro t' ht' hmem
      rcases List.mem_append.mp hmem with h | h
      · exact hdr t' ht' h
      · exact htr (List.mem_singleton.mp h ▸ ht')
    rw [List.foldl_cons]
    cases hg : st.get t sl tl with
    | none =>
      rw [batchGetStep_none st sl tl acc t hg]
      exact ih (acc.1, acc.2 ++ [t]) hndr happ hdisj'
    | some tr =>
      by_cases htr0 : tr = []
      · subst htr0
        rw [batchGetStep_empty st sl tl acc t hg]
        exact ih (acc.1, acc.2 ++ [t]) hndr happ hdisj'
      · rw [batchGetStep_hit st sl tl acc t tr hg htr0]
        exact ih (setK acc.1 t tr, acc.2) hndr hacc hdr

theorem filterFold_partition (g : GlossaryManager) (tl : Str) (strings : List Str)
    (acc : List Str × List (Str × Str)) (hnd : strings.Nodup)
    (hfresh : ∀ s ∈ strings, s ∉ keysOf acc.2) :
    (strings.foldl (filterStep g tl) acc).1.length +
      (strings.foldl (filterStep g tl) acc).2.length =
      acc.1.length + acc.2.length + strings.length := by
  induction strings generalizing acc with
  | nil => simp
  | cons s rest ih =>
    obtain ⟨hsr, hndr⟩ := List.nodup_cons.mp hnd
    have hs : s ∉ keysOf acc.2 := hfresh s (List.mem_cons_self _ _)
    have hfr : ∀ s' ∈ rest, s' ∉ keysOf acc.2 :=
      fun s' hs' => hfresh s' (List.mem_cons_of_mem _ hs')
    rw [List.foldl_cons]
    have hstep1 := filterStep_need_eq g tl acc s
    have hstep2 := filterStep_skip_eq g tl acc s
    cases hd : dispositionOf g tl s with
    | none =>
      rw [hd] at hstep1 hstep2
      have : filterStep g tl acc s = (acc.1 ++ [s], acc.2) := by
        ext1
        · exact hstep1
        · exact hstep2
      rw [this, ih (acc.1 ++ [s], acc.2) hndr hfr]
      simp only [List.length_append, List.length_cons, List.length_nil]
      omega
    | some v =>
      rw [hd] at hstep1 hstep2
      have : filterStep g tl acc s = (acc.1, setK acc.2 s v) := by
        ext1
        · exact hstep1
        · exact hstep2
      rw [this]
      rw [ih (acc.1, setK acc.2 s v) hndr ?_]
      · show acc.1.length + (setK acc.2 s v).length + rest.length = _
        rw [length_setK_of_not_mem _ _ _ hs]
        simp only [List.length_cons]
        omega
      · intro s' hs'
        rw [mem_keysOf_setK]
        rintro (rfl | hmem)
        · exact hsr hs'
        · exact hfr s' hs' hmem

theorem preprocessFold_length (g : GlossaryManager) (tl : Str) (strings : List Str)
    (acc : List Str × Nat × List (Str × PlaceholderInfo)) :
    (strings.foldl (preprocessStep g tl) acc).1.length = acc.1.length + strings.length := by
  induction strings generalizing acc with
  | nil => simp
  | cons s rest ih =>
    rw [List.foldl_cons, ih]
    show (acc.1 ++ [_]).length + rest.length = _
    simp only [List.length_append, List.length_cons, List.length_nil]
    omega

theorem preprocess_length (g : GlossaryManager) (strings : List Str) (tl : Str) :
    (g.preprocessStrings strings tl).1.length = strings.length := by
  show (strings.foldl (preprocessStep g tl) ([], 0, [])).1.length = strings.length
  rw [preprocessFold_length g tl strings ([], 0, [])]
  show ([] : List Str).length + strings.length = strings.length
  simp

theorem wfGlossaryStage_none (finalT0 : List (Str × Str)) (toTrans1 : List Str)
    (targetLang : Str) :
    wfGlossaryStage finalT0 toTrans1 none targetLang = (finalT0, 0, toTrans1, none) := rfl

theorem wfGlossaryStage_some (finalT0 : List (Str × Str)) (toTrans1 : List Str)
    (g : GlossaryManager) (targetLang : Str) :
    wfGlossaryStage finalT0 toTrans1 (some g) targetLang =
      if toTrans1 = [] then (finalT0, 0, toTrans1, none)
      else
        (assignAll finalT0 (g.prepareForTranslation toTrans1 targetLang).skipTranslation,
         (g.prepareForTranslation toTrans1 targetLang).skipTranslation.length,
         (g.prepareForTranslation toTrans1 targetLang).stringsForAPI,
         some (g.prepareForTranslation toTrans1 targetLang)) := rfl

/-- The three provenance counters of the workflow stages always sum to the
input length, for deduplicated input. -/
theorem wf_counts (strings : List Str) (memory : Option TranslationMemoryStore)
    (glossary : Option GlossaryManager) (sourceLang targetLang : Str)
    (hnd : strings.Nodup) :
    (wfMemoryStage strings memory sourceLang targetLang).2.1 +
      (wfGlossaryStage (wfMemoryStage strings memory sourceLang targetLang).1
        (wfMemoryStage strings memory sourceLang targetLang).2.2 glossary
        targetLang).2.1 +
      (wfGlossaryStage (wfMemoryStage strings memory sourceLang targetLang).1
        (wfMemoryStage strings memory sourceLang targetLang).2.2 glossary
        targetLang).2.2.1.length = strings.length := by
  have glossStage : ∀ (finalT0 : List (Str × Str)) (toTrans1 : List Str),
      toTrans1.Nodup →
      (wfGlossaryStage finalT0 toTrans1 glossary targetLang).2.1 +
        (wfGlossaryStage finalT0 toTrans1 glossary targetLang).2.2.1.length =
        toTrans1.length := by
    intro finalT0 toTrans1 hnd1
    cases glossary with
    | none =>
      show 0 + toTrans1.length = toTrans1.length
      omega
    | some g =>
      rw [wfGlossaryStage_some]
      by_cases he : toTrans1 = []
      · rw [if_pos he, he]
        show 0 + ([] : List Str).length = _
        rfl
      · rw [if_neg he]
        show (g.prepareForTranslation toTrans1 targetLang).skipTranslation.length +
          (g.prepareForTranslation toTrans1 targetLang).stringsForAPI.length = _
        have hskip : (g.prepareForTranslation toTrans1 targetLang).skipTranslation =
            (g.filterStrings toTrans1 targetLang).2 := rfl
        have hapi : (g.prepareForTranslation toTrans1 targetLang).stringsForAPI =
            (g.preprocessStrings (g.filterStrings toTrans1 targetLang).1 targetLang).1 := rfl
        rw [hskip, hapi, preprocess_length]
        have hfp := filterFold_partition g targetLang toTrans1 ([], []) hnd1
          (by intro s hs h; cases h)
        simp only [List.length_nil] at hfp
        unfold GlossaryManager.filterStrings
        omega
  cases memory with
  | none =>
    have h1 : wfMemoryStage strings none sourceLang targetLang = ([], 0, strings) := rfl
    rw [h1]
    have hg := glossStage [] strings hnd
    dsimp only at hg ⊢
    omega
  | some mem =>
    have h1 : wfMemoryStage strings (some mem) sourceLang targetLang =
        (assignAll [] (mem.batchGet strings sourceLang targetLang).1,
         (mem.batchGet strings sourceLang targetLang).1.length,
         (mem.batchGet strings sourceLang targetLang).2) := rfl
    rw [h1]
    dsimp only
    have hmnd : (mem.batchGet strings sourceLang targetLang).2.Nodup :=
      batchGet_fold_missing_nodup mem sourceLang targetLang strings ([], []) hnd
        List.nodup_nil (by intro t ht h; cases h)
    have hpart : (mem.batchGet strings sourceLang targetLang).1.length +
        (mem.batchGet strings sourceLang targetLang).2.length = strings.length := by
      have h0 := batchGet_fold_partition mem sourceLang targetLang strings ([], []) hnd
        (by intro t ht h; cases h)
      simp only [List.length_nil] at h0
      show (strings.foldl (batchGetStep mem sourceLang targetLang) ([], [])).1.length +
        (strings.foldl (batchGetStep mem sourceLang targetLang) ([], [])).2.length = _
      omega
    have hg := glossStage (assignAll [] (mem.batchGet strings sourceLang targetLang).1)
      (mem.batchGet strings sourceLang targetLang).2 hmnd
    omega

/-- C2.  For a deduplicated list of non-empty strings, the workflow's reported
provenance counts satisfy `fromMemory + fromGlossary + fromAPI =
strings.length` (the number of unique non-empty input strings), and
`total = strings.length`: every string is resolved by exactly one tier. -/
theorem claim_C2_provenance_counts (api : Api) (strings : List Str)
    (targetLang apiKey : Str) (memory : Option TranslationMemoryStore)
    (glossary : Option GlossaryManager) (sourceLang : Str) (maxChunkSize : Nat)
    (r : WfResult) (hnd : strings.Nodup)
    (hne : ∀ s ∈ strings, s ≠ [] ∧ trim s ≠ [])
    (hr : translateWithMemoryAndGlossary api strings targetLang apiKey memory glossary
        sourceLang maxChunkSize = .ok r) :
    r.fromMemory + r.fromGlossary + r.fromAPI = strings.length ∧
      r.total = strings.length := by
  have hc := wf_counts strings memory glossary sourceLang targetLang hnd
  unfold translateWithMemoryAndGlossary at hr
  dsimp only at hr
  by_cases h0 : (wfGlossaryStage (wfMemoryStage strings memory sourceLang targetLang).1
      (wfMemoryStage strings memory sourceLang targetLang).2.2 glossary
      targetLang).2.2.1 = []
  · rw [if_pos h0] at hr
    injection hr with h
    subst h
    exact ⟨hc, rfl⟩
  · rw [if_neg h0] at hr
    cases ht : translateStrings api
        (wfGlossaryStage (wfMemoryStage strings memory sourceLang targetLang).1
          (wfMemoryStage strings memory sourceLang targetLang).2.2 glossary
          targetLang).2.2.1 targetLang apiKey maxChunkSize none with
    | error e =>
      rw [ht] at hr
      cases hr
    | ok result =>
      rw [ht] at hr
      dsimp only at hr
      injection hr with h
      subst h
      exact ⟨hc, rfl⟩

/-- Witness for C2 at a concrete run: one memory hit, one glossary skip, one
API string; `1 + 1 + 1 = 3`. -/
theorem claim_C2_provenance_counts_witness :
    ∃ r, translateWithMemoryAndGlossary apiIdentity
        [str "Hello", str "Acme", str "Goodbye"] (str "es") (str "k")
        (some memHello) (some acmeGloss) (str "en") 50 = .ok r ∧
      r.fromMemory + r.fromGlossary + r.fromAPI = 3 ∧ r.total = 3 := by
  obtain ⟨r, hr⟩ : ∃ r, translateWithMemoryAndGlossary apiIdentity
      [str "Hello", str "Acme", str "Goodbye"] (str "es") (str "k")
      (some memHello) (some acmeGloss) (str "en") 50 = .ok r := ⟨_, rfl⟩
  refine ⟨r, hr, ?_⟩
  exact claim_C2_provenance_counts apiIdentity _ (str "es") (str "k")
    (some memHello) (some acmeGloss) (str "en") 50 r (by decide) (by decide) hr

/-! ## Chunk fallback (claim C3) -/

theorem addStr_nodup (l : List Str) (s : Str) (h : l.Nodup) : (addStr l s).Nodup := by
  unfold addStr
  by_cases hs : s ∈ l
  · rw [if_pos hs]
    exact h
  · rw [if_neg hs]
    rw [List.nodup_append]
    exact ⟨h, List.nodup_singleton s, by
      intro x hx hxs
      rw [List.mem_singleton] at hxs
      exact hs (hxs ▸ hx)⟩

theorem dedupFold_nodup (l : List Str) (acc : List Str) (h : acc.Nodup) :
    (l.foldl addStr acc).Nodup := by
  induction l generalizing acc with
  | nil => exact h
  | cons x rest ih =>
    rw [List.foldl_cons]
    exact ih _ (addStr_nodup acc x h)

theorem dedupFirst_nodup (l : List Str) : (dedupFirst l).Nodup :=
  dedupFold_nodup l [] List.nodup_nil

theorem uniqueOf_nodup (strings : List Str) : (uniqueOf strings).Nodup :=
  dedupFirst_nodup _

theorem chunkifyF_fuel : ∀ (f1 f2 : Nat) (l : List Str) (n : Nat), l.length ≤ f1 →
    l.length ≤ f2 → chunkifyF f1 l n = chunkifyF f2 l n := by
  intro f1
  induction f1 with
  | zero =>
    intro f2 l n h1 h2
    have hl : l = [] := List.length_eq_zero.mp (Nat.le_zero.mp h1)
    subst hl
    cases f2 with
    | zero => rfl
    | succ f =>
      simp only [chunkifyF]
      by_cases hn : n = 0
      · rw [if_pos hn]
      · rw [if_neg hn]
        simp
  | succ f1 ih =>
    intro f2 l n h1 h2
    cases f2 with
    | zero =>
      have hl : l = [] := List.length_eq_zero.mp (Nat.le_zero.mp h2)
      subst hl
      simp only [chunkifyF]
      by_cases hn : n = 0
      · rw [if_pos hn]
      · rw [if_neg hn]
        simp
    | succ f2' =>
      simp only [chunkifyF]
      by_cases hn : n = 0
      · rw [if_pos hn, if_pos hn]
      · rw [if_neg hn, if_neg hn]
        by_cases he : l = []
        · rw [if_pos he, if_pos he]
        · rw [if_neg he, if_neg he]
          have hlen : 0 < l.length := List.length_pos.mpr he
          have hn1 : 1 ≤ n := Nat.one_le_iff_ne_zero.mpr hn
          rw [ih f2' (l.drop n) n ?_ ?_]
          · rw [List.length_drop]; omega
          · rw [List.length_drop]; omega

theorem chunkify_eq (l : List Str) (n : Nat) :
    chunkify l n =
      if n = 0 then [] else if l = [] then [] else l.take n :: chunkify (l.drop n) n := by
  unfold chunkify
  obtain ⟨m, hm⟩ | hl0 : (∃ m, l.length = m + 1) ∨ l.length = 0 := by
    cases hl : l.length
    · exact Or.inr rfl
    · exact Or.inl ⟨_, rfl⟩
  · rw [hm]
    simp only [chunkifyF]
    by_cases hn : n = 0
    · rw [if_pos hn, if_pos hn]
    · rw [if_neg hn, if_neg hn]
      by_cases he : l = []
      · rw [if_pos he, if_pos he]
      · rw [if_neg he, if_neg he]
        have hn1 : 1 ≤ n := Nat.one_le_iff_ne_zero.mpr hn
        rw [chunkifyF_fuel m (l.drop n).length (l.drop n) n ?_ (Nat.le_refl _)]
        rw [List.length_drop]
        omega
  · have hl : l = [] := List.length_eq_zero.mp hl0
    subst hl
    by_cases hn : n = 0
    · rw [if_pos hn]
      rfl
    · rw [if_neg hn, if_pos rfl]
      rfl

theorem chunkify_flatten_le (len : Nat) : ∀ (l : List Str) (n : Nat), l.length ≤ len →
    n ≠ 0 → (chunkify l n).flatten = l := by
  induction len with
  | zero =>
    intro l n hl hn
    have : l = [] := List.length_eq_zero.mp (Nat.le_zero.mp hl)
    subst this
    rw [chunkify_eq, if_neg hn, if_pos rfl]
    rfl
  | succ len ih =>
    intro l n hl hn
    by_cases he : l = []
    · subst he
      rw [chunkify_eq, if_neg hn, if_pos rfl]
      rfl
    · rw [chunkify_eq, if_neg hn, if_neg he, List.flatten_cons]
      rw [ih (l.drop n) n ?_ hn]
      · exact List.take_append_drop n l
      · have h1 : 0 < l.length := List.length_pos.mpr he
        have h2 : 1 ≤ n := Nat.one_le_iff_ne_zero.mpr hn
        rw [List.length_drop]
        omega

theorem chunkify_flatten (l : List Str) (n : Nat) (hn : n ≠ 0) :
    (chunkify l n).flatten = l :=
  chunkify_flatten_le l.length l n (Nat.le_refl _) hn

theorem getK_assignAll_of_not_mem (acc m : List (Str × Str)) (s : Str)
    (hs : s ∉ keysOf m) : getK (assignAll acc m) s = getK acc s := by
  induction m generalizing acc with
  | nil => rfl
  | cons p rest ih =>
    have hsp : s ≠ p.1 := fun h => hs (h ▸ List.mem_cons_self _ _)
    have hsr : s ∉ keysOf rest := fun h => hs (List.mem_cons_of_mem _ h)
    show getK (assignAll (setK acc p.1 p.2) rest) s = getK acc s
    rw [ih _ hsr, getK_setK_ne _ _ _ _ hsp]

theorem getK_assignAll_of_mem (acc m : List (Str × Str)) (s : Str)
    (hnd : (keysOf m).Nodup) (hs : s ∈ keysOf m) :
    getK (assignAll acc m) s = getK m s := by
  induction m generalizing acc with
  | nil => cases hs
  | cons p rest ih =>
    obtain ⟨hp1, hndr⟩ := List.nodup_cons.mp hnd
    show getK (assignAll (setK acc p.1 p.2) rest) s = getK (p :: rest) s
    rcases List.mem_cons.mp hs with hsp | hsr
    · subst hsp
      rw [getK_assignAll_of_not_mem _ _ _ hp1, getK_setK_self]
      show _ = getK ((p.1, p.2) :: rest) p.1
      rw [getK_cons, if_pos rfl]
    · have hsp : s ≠ p.1 := fun h => hp1 (h ▸ hsr)
      rw [ih _ hndr hsr]
      show getK rest s = getK ((p.1, p.2) :: rest) s
      rw [getK_cons, if_neg (fun h => hsp h.symm)]

theorem getK_idFold_of_not_mem (c : List Str) (acc : List (Str × Str)) (s : Str)
    (hs : s ∉ c) : getK (c.foldl (fun a x => setK a x x) acc) s = getK acc s := by
  induction c generalizing acc with
  | nil => rfl
  | cons t rest ih =>
    have hst : s ≠ t := fun h => hs (h ▸ List.mem_cons_self _ _)
    have hsr : s ∉ rest := fun h => hs (List.mem_cons_of_mem _ h)
    rw [List.foldl_cons, ih _ hsr, getK_setK_ne _ _ _ _ hst]

theorem getK_idFold_of_mem (c : List Str) (acc : List (Str × Str)) (s : Str)
    (hs : s ∈ c) : getK (c.foldl (fun a x => setK a x x) acc) s = some s := by
  induction c generalizing acc with
  | nil => cases hs
  | cons t rest ih =>
    rw [List.foldl_cons]
    by_cases hsr : s ∈ rest
    · exact ih _ hsr
    · have hst : s = t := by
        rcases List.mem_cons.mp hs with h | h
        · exact h
        · exact absurd h hsr
      subst hst
      rw [getK_idFold_of_not_mem rest _ s hsr, getK_setK_self]

theorem processChunks_cons (api : Api) (i : Nat) (c : List Str) (rest : List (List Str))
    (acc : List (Str × Str)) (usage : TokenUsage) :
    processChunks api i (c :: rest) acc usage =
      match api c with
      | some (m, u) =>
        processChunks api (i + 1) rest (assignAll acc m)
          ⟨usage.input + u.promptTokens, usage.output + u.completionTokens,
           usage.total + u.totalTokens,
           usage.chunks ++ [⟨i + 1, u.promptTokens, u.completionTokens, u.totalTokens⟩]⟩
      | none =>
        processChunks api (i + 1) rest (c.foldl (fun a x => setK a x x) acc) usage := rfl

theorem processChunks_cons_none (api : Api) (i : Nat) (c : List Str)
    (rest : List (List Str)) (acc : List (Str × Str)) (usage : TokenUsage)
    (hg : api c = none) :
    processChunks api i (c :: rest) acc usage =
      processChunks api (i + 1) rest (c.foldl (fun a x => setK a x x) acc) usage := by
  rw [processChunks_cons, hg]

theorem processChunks_cons_some (api : Api) (i : Nat) (c : List Str)
    (rest : List (List Str)) (acc : List (Str × Str)) (usage : TokenUsage)
    (m : List (Str × Str)) (u : ApiUsage) (hg : api c = some (m, u)) :
    processChunks api i (c :: rest) acc usage =
      processChunks api (i + 1) rest (assignAll acc m)
        ⟨usage.input + u.promptTokens, usage.output + u.completionTokens,
         usage.total + u.totalTokens,
         usage.chunks ++ [⟨i + 1, u.promptTokens, u.completionTokens, u.totalTokens⟩]⟩ := by
  rw [processChunks_cons, hg]

theorem getK_processChunks_of_not_mem (api : Api) (chunks : List (List Str)) (i : Nat)
    (acc : List (Str × Str)) (usage : TokenUsage) (s : Str)
    (hs : s ∉ chunks.flatten)
    (hapi : ∀ c' m u, api c' = some (m, u) → keysOf m = c') :
    getK (processChunks api i chunks acc usage).1 s = getK acc s := by
  induction chunks generalizing i acc usage with
  | nil => rfl
  | cons c rest ih =>
    rw [List.flatten_cons] at hs
    have hsc : s ∉ c := fun h => hs (List.mem_append_left _ h)
    have hsr : s ∉ rest.flatten := fun h => hs (List.mem_append_right _ h)
    cases hg : api c with
    | none =>
      rw [processChunks_cons_none api i c rest acc usage hg]
      rw [ih (i + 1) _ _ hsr, getK_idFold_of_not_mem c acc s hsc]
    | some p =>
      obtain ⟨m, u⟩ := p
      rw [processChunks_cons_some api i c rest acc usage m u hg]
      rw [ih (i + 1) _ _ hsr]
      rw [getK_assignAll_of_not_mem acc m s (by rw [hapi c m u hg]; exact hsc)]

/-- After the chunk loop, a string of a chunk maps to its chunk's outcome: the
response's entry for it on success, itself on failure. -/
theorem getK_processChunks_of_mem (api : Api) (chunks : List (List Str)) (i : Nat)
    (acc : List (Str × Str)) (usage : TokenUsage) (c : List Str) (s : Str)
    (hc : c ∈ chunks) (hs : s ∈ c) (hnd : chunks.flatten.Nodup)
    (hapi : ∀ c' m u, api c' = some (m, u) → keysOf m = c') :
    getK (processChunks api i chunks acc usage).1 s =
      match api c with
      | none => some s
      | some (m, _) => getK m s := by
  induction chunks generalizing i acc usage with
  | nil => cases hc
  | cons c0 rest ih =>
    rw [List.flatten_cons, List.nodup_append] at hnd
    obtain ⟨hndc0, hndr, hdisj⟩ := hnd
    rcases List.mem_cons.mp hc with hcc | hcr
    · subst hcc
      have hsr : s ∉ rest.flatten := fun h => hdisj hs h
      cases hg : api c with
      | none =>
        rw [processChunks_cons_none api i c rest acc usage hg]
        rw [getK_processChunks_of_not_mem api rest _ _ _ s hsr hapi]
        exact getK_idFold_of_mem c acc s hs
      | some p =>
        obtain ⟨m, u⟩ := p
        rw [processChunks_cons_some api i c rest acc usage m u hg]
        rw [getK_processChunks_of_not_mem api rest _ _ _ s hsr hapi]
        exact getK_assignAll_of_mem acc m s
          (by rw [hapi c m u hg]; exact hndc0)
          (by rw [hapi c m u hg]; exact hs)
    · cases hg : api c0 with
      | none =>
        rw [processChunks_cons_none api i c0 rest acc usage hg]
        exact ih (i + 1) _ _ hcr hndr
      | some p =>
        obtain ⟨m, u⟩ := p
        rw [processChunks_cons_some api i c0 rest acc usage m u hg]
        exact ih (i + 1) _ _ hcr hndr

/-- The usage reported by one chunk: the response's usage on success, nothing
on a thrown error. -/
def successUsage (api : Api) (c : List Str) : ApiUsage :=
  match api c with
  | some (_, u) => u
  | none => ⟨0, 0, 0⟩

theorem processChunks_usage (api : Api) (chunks : List (List Str)) (i : Nat)
    (acc : List (Str × Str)) (usage : TokenUsage) :
    (processChunks api i chunks acc usage).2.input =
      usage.input + (chunks.map (fun c => (successUsage api c).promptTokens)).sum ∧
    (processChunks api i chunks acc usage).2.output =
      usage.output + (chunks.map (fun c => (successUsage api c).completionTokens)).sum ∧
    (processChunks api i chunks acc usage).2.total =
      usage.total + (chunks.map (fun c => (successUsage api c).totalTokens)).sum := by
  induction chunks generalizing i acc usage with
  | nil =>
    refine ⟨?_, ?_, ?_⟩ <;> simp [processChunks]
  | cons c rest ih =>
    cases hg : api c with
    | none =>
      have hsc : successUsage api c = ⟨0, 0, 0⟩ := by
        unfold successUsage
        rw [hg]
      rw [processChunks_cons_none api i c rest acc usage hg]
      obtain ⟨h1, h2, h3⟩ := ih (i + 1) (c.foldl (fun a x => setK a x x) acc) usage
      refine ⟨?_, ?_, ?_⟩ <;>
        simp only [h1, h2, h3, List.map_cons, List.sum_cons, hsc] <;> omega
    | some p =>
      obtain ⟨m, u⟩ := p
      have hsc : successUsage api c = u := by
        unfold successUsage
        rw [hg]
      rw [processChunks_cons_some api i c rest acc usage m u hg]
      obtain ⟨h1, h2, h3⟩ := ih (i + 1) (assignAll acc m)
        ⟨usage.input + u.promptTokens, usage.output + u.completionTokens,
         usage.total + u.totalTokens,
         usage.chunks ++ [⟨i + 1, u.promptTokens, u.completionTokens, u.totalTokens⟩]⟩
      refine ⟨?_, ?_, ?_⟩ <;>
        simp only [h1, h2, h3, List.map_cons, List.sum_cons, hsc] <;> omega

theorem chunkify_nil (n : Nat) : chunkify ([] : List Str) n = [] := by
  rw [chunkify_eq]
  by_cases h : n = 0
  · rw [if_pos h]
  · rw [if_neg h, if_pos rfl]

theorem chunkify_flatten_nodup (l : List Str) (n : Nat) (h : l.Nodup) :
    (chunkify l n).flatten.Nodup := by
  by_cases hn : n = 0
  · subst hn
    rw [chunkify_eq, if_pos rfl]
    exact List.nodup_nil
  · rw [chunkify_flatten l n hn]
    exact h

/-- C3.  When the capability throws for some chunks and succeeds for others,
`translateStrings` does not abort: every string of a failed chunk is mapped to
itself, every string of a successful chunk is mapped to the response's entry
for it (assuming, as the spec's external interface requires, that responses
are keyed by the chunk's strings), and the accumulated input/output/total
token counts sum exactly the usage of the successful chunks. -/
theorem claim_C3_chunk_fallback (api : Api) (strings : List Str)
    (targetLanguage apiKey : Str) (maxChunkSize : Nat) (r : TransResult)
    (hapi : ∀ c m u, api c = some (m, u) → keysOf m = c)
    (hr : translateStrings api strings targetLanguage apiKey maxChunkSize none = .ok r) :
    (∀ c ∈ chunkify (uniqueOf strings) maxChunkSize, api c = none →
      ∀ s ∈ c, getK r.translations s = some s) ∧
    (∀ c ∈ chunkify (uniqueOf strings) maxChunkSize, ∀ m u, api c = some (m, u) →
      ∀ s ∈ c, getK r.translations s = getK m s) ∧
    r.tokensUsed.input = ((chunkify (uniqueOf strings) maxChunkSize).map
      (fun c => (successUsage api c).promptTokens)).sum ∧
    r.tokensUsed.output = ((chunkify (uniqueOf strings) maxChunkSize).map
      (fun c => (successUsage api c).completionTokens)).sum ∧
    r.tokensUsed.total = ((chunkify (uniqueOf strings) maxChunkSize).map
      (fun c => (successUsage api c).totalTokens)).sum := by
  cases hl : getK SUPPORTED_LANGUAGES targetLanguage with
  | none =>
    unfold translateStrings at hr
    rw [hl] at hr
    cases hr
  | some name =>
    unfold translateStrings at hr
    rw [hl] at hr
    dsimp only at hr
    by_cases hstr : strings = []
    · rw [if_pos hstr] at hr
      cases hr
    · rw [if_neg hstr] at hr
      by_cases hk : apiKey = []
      · rw [if_pos hk] at hr
        cases hr
      · rw [if_neg hk] at hr
        by_cases hu : uniqueOf strings = []
        · rw [if_pos hu] at hr
          injection hr with h
          subst h
          rw [hu, chunkify_nil]
          refine ⟨?_, ?_, ?_, ?_, ?_⟩
          · intro c hc
            cases hc
          · intro c hc
            cases hc
          · rfl
          · rfl
          · rfl
        · rw [if_neg hu] at hr
          injection hr with h
          subst h
          have hnd := chunkify_flatten_nodup (uniqueOf strings) maxChunkSize
            (uniqueOf_nodup strings)
          refine ⟨?_, ?_, ?_, ?_, ?_⟩
          · intro c hc hgc s hs
            have h := getK_processChunks_of_mem api
              (chunkify (uniqueOf strings) maxChunkSize) 0 [] ⟨0, 0, 0, []⟩ c s hc hs
              hnd hapi
            rw [hgc] at h
            exact h
          · intro c hc m u hgc s hs
            have h := getK_processChunks_of_mem api
              (chunkify (uniqueOf strings) maxChunkSize) 0 [] ⟨0, 0, 0, []⟩ c s hc hs
              hnd hapi
            rw [hgc] at h
            exact h
          · have h := (processChunks_usage api
              (chunkify (uniqueOf strings) maxChunkSize) 0 [] ⟨0, 0, 0, []⟩).1
            simpa using h
          · have h := (processChunks_usage api
              (chunkify (uniqueOf strings) maxChunkSize) 0 [] ⟨0, 0, 0, []⟩).2.1
            simpa using h
          · have h := (processChunks_usage api
              (chunkify (uniqueOf strings) maxChunkSize) 0 [] ⟨0, 0, 0, []⟩).2.2
            simpa using h

/-- A capability that throws on the chunk holding `"b"` and translates `s` to
`s ++ "!"` elsewhere, reporting 1/2/3 tokens per successful chunk. -/
def apiFailB : Api := fun chunk =>
  if (str "b") ∈ chunk then none
  else some (chunk.map (fun s => (s, s ++ str "!")), ⟨1, 2, 3⟩)

theorem apiFailB_keyed : ∀ c m u, apiFailB c = some (m, u) → keysOf m = c := by
  intro c m u h
  unfold apiFailB at h
  by_cases hb : (str "b") ∈ c
  · rw [if_pos hb] at h
    cases h
  · rw [if_neg hb] at h
    injection h with h'
    have hm : m = c.map (fun s => (s, s ++ str "!")) := (congrArg Prod.fst h').symm
    subst hm
    unfold keysOf
    rw [List.map_map]
    have hid : (Prod.fst ∘ fun s : Str => (s, s ++ str "!")) = id := by
      funext s
      rfl
    rw [hid, List.map_id]

/-- Witness for C3: three chunks of one string each, the middle one failing. -/
theorem claim_C3_chunk_fallback_witness :
    ∃ r, translateStrings apiFailB [str "a", str "b", str "c"] (str "es") (str "k")
        1 none = .ok r ∧
      getK r.translations (str "b") = some (str "b") ∧
      getK r.translations (str "a") = some (str "a!") ∧
      getK r.translations (str "c") = some (str "c!") ∧
      r.tokensUsed.input = 2 ∧ r.tokensUsed.output = 4 ∧ r.tokensUsed.total = 6 := by
  obtain ⟨r, hr⟩ : ∃ r, translateStrings apiFailB [str "a", str "b", str "c"]
      (str "es") (str "k") 1 none = .ok r := ⟨_, rfl⟩
  have h := claim_C3_chunk_fallback apiFailB [str "a", str "b", str "c"] (str "es")
    (str "k") 1 r apiFailB_keyed hr
  refine ⟨r, hr, ?_, ?_, ?_, ?_, ?_, ?_⟩
  · exact h.1 [str "b"] (by decide) (by decide) (str "b") (by decide)
  · have := h.2.1 [str "a"] (by decide) [(str "a", str "a!")] ⟨1, 2, 3⟩ (by decide)
      (str "a") (by decide)
    rw [this]
    decide
  · have := h.2.1 [str "c"] (by decide) [(str "c", str "c!")] ⟨1, 2, 3⟩ (by decide)
      (str "c") (by decide)
    rw [this]
    decide
  · rw [h.2.2.1]
    decide
  · rw [h.2.2.2.1]
    decide
  · rw [h.2.2.2.2]
    decide

/-! ## Totality of the translations mapping (claim C1) -/

/-- `Except.isOk` (local definition to keep the development self-contained). -/
def isOkE {ε α : Type} : Except ε α → Bool
  | .ok _ => true
  | .error _ => false

/-- The translations returned by the C1 scenario run: the single input string
`"Welcome to Acme today"` with the `Acme` glossary, against an identity
capability keyed by the chunk strings. -/
def c1run : Except TransError TransResult :=
  translateStrings apiIdentity [str "Welcome to Acme today"] (str "es") (str "k")
    50 (some acmeGloss)

/-- The translations mapping of `c1run` (empty on error). -/
def c1translations : List (Str × Str) :=
  match c1run with
  | .ok r => r.translations
  | .error _ => []

/-- C1 counterexample.  The run succeeds, yet the original input string
`"Welcome to Acme today"` is NOT a key of the returned mapping: the string
underwent in-text placeholder substitution and appears only under its
processed form `"Welcome to __GLOSSARY_0__ today"` (whose value did get its
placeholder restored). -/
theorem claim_C1_totality_cex :
    isOkE c1run = true ∧
    hasK c1translations (str "Welcome to Acme today") = false ∧
    getK c1translations (str "Welcome to __GLOSSARY_0__ today") =
      some (str "Welcome to Acme today") := by
  refine ⟨by decide, by decide, by decide⟩

theorem hasK_setK_mono {β : Type} (m : List (Str × β)) (k s : Str) (v : β)
    (h : hasK m s = true) : hasK (setK m k v) s = true := by
  rw [hasK_iff_mem_keysOf] at h ⊢
  rw [mem_keysOf_setK]
  exact Or.inr h

theorem hasK_assignAll_mono (acc m : List (Str × Str)) (s : Str)
    (h : hasK acc s = true) : hasK (assignAll acc m) s = true := by
  rw [hasK_iff_mem_keysOf] at h ⊢
  exact (mem_keys_foldl_setK (fun p => p.2) m acc s).mpr (Or.inl h)

theorem hasK_idFold_mono (c : List Str) (acc : List (Str × Str)) (s : Str)
    (h : hasK acc s = true) :
    hasK (c.foldl (fun a x => setK a x x) acc) s = true := by
  induction c generalizing acc with
  | nil => exact h
  | cons t rest ih =>
    rw [List.foldl_cons]
    exact ih _ (hasK_setK_mono acc t s t h)

theorem hasK_processChunks_mono (api : Api) (chunks : List (List Str)) (i : Nat)
    (acc : List (Str × Str)) (usage : TokenUsage) (s : Str)
    (h : hasK acc s = true) :
    hasK (processChunks api i chunks acc usage).1 s = true := by
  induction chunks generalizing i acc usage with
  | nil => exact h
  | cons c rest ih =>
    cases hg : api c with
    | none =>
      rw [processChunks_cons_none api i c rest acc usage hg]
      exact ih _ _ _ (hasK_idFold_mono c acc s h)
    | some p =>
      obtain ⟨m, u⟩ := p
      rw [processChunks_cons_some api i c rest acc usage m u hg]
      exact ih _ _ _ (hasK_assignAll_mono acc m s h)

theorem hasK_idFold_of_mem (c : List Str) (acc : List (Str × Str)) (s : Str)
    (hs : s ∈ c) : hasK (c.foldl (fun a x => setK a x x) acc) s = true := by
  induction c generalizing acc with
  | nil => cases hs
  | cons t rest ih =>
    rw [List.foldl_cons]
    by_cases h : s ∈ rest
    · exact ih _ h
    · have hst : s = t := by
        rcases List.mem_cons.mp hs with h1 | h1
        · exact h1
        · exact absurd h1 h
      subst hst
      refine hasK_idFold_mono rest _ s ?_
      rw [hasK_iff_mem_keysOf, mem_keysOf_setK]
      exact Or.inl rfl

theorem hasK_assignAll_of_mem_keys (acc m : List (Str × Str)) (s : Str)
    (h : s ∈ keysOf m) : hasK (assignAll acc m) s = true := by
  rw [hasK_iff_mem_keysOf]
  refine (mem_keys_foldl_setK (fun p => p.2) m acc s).mpr (Or.inr ?_)
  exact (mem_keysOf_iff m s).mp h

/-- Every string of every chunk is a key after the loop (its chunk either
succeeded with a response keyed by the chunk, or fell back to identity). -/
theorem hasK_processChunks_of_mem_flatten (api : Api) (chunks : List (List Str))
    (i : Nat) (acc : List (Str × Str)) (usage : TokenUsage) (s : Str)
    (hs : s ∈ chunks.flatten)
    (hapi : ∀ c' m u, api c' = some (m, u) → keysOf m = c') :
    hasK (processChunks api i chunks acc usage).1 s = true := by
  induction chunks generalizing i acc usage with
  | nil => cases hs
  | cons c rest ih =>
    rw [List.flatten_cons, List.mem_append] at hs
    cases hg : api c with
    | none =>
      rw [processChunks_cons_none api i c rest acc usage hg]
      rcases hs with hsc | hsr
      · exact hasK_processChunks_mono api rest (i + 1) _ usage s
          (hasK_idFold_of_mem c acc s hsc)
      · exact ih _ _ _ hsr
    | some p =>
      obtain ⟨m, u⟩ := p
      rw [processChunks_cons_some api i c rest acc usage m u hg]
      rcases hs with hsc | hsr
      · refine hasK_processChunks_mono api rest (i + 1) _ _ s ?_
        refine hasK_assignAll_of_mem_keys acc m s ?_
        rw [hapi c m u hg]
        exact hsc
      · exact ih _ _ _ hsr

/-- Keys survive the final `Object.assign(allT, processed)` merge. -/
theorem hasK_assignAll_left (acc m : List (Str × Str)) (s : Str)
    (h : hasK acc s = true) : hasK (assignAll acc m) s = true :=
  hasK_assignAll_mono acc m s h

theorem prep_stringsForAPI (g : GlossaryManager) (strings : List Str) (tl : Str) :
    (g.prepareForTranslation strings tl).stringsForAPI =
      (g.preprocessStrings (g.filterStrings strings tl).1 tl).1 := rfl

theorem prep_originalStrings (g : GlossaryManager) (strings : List Str) (tl : Str) :
    (g.prepareForTranslation strings tl).originalStrings =
      (g.filterStrings strings tl).1 := rfl

theorem prep_skipTranslation (g : GlossaryManager) (strings : List Str) (tl : Str) :
    (g.prepareForTranslation strings tl).skipTranslation =
      (g.filterStrings strings tl).2 := rfl

theorem apiIdentity_keyed : ∀ c m u, apiIdentity c = some (m, u) → keysOf m = c := by
  intro c m u h
  injection h with h'
  have hm : m = c.map (fun s => (s, s)) := (congrArg Prod.fst h').symm
  subst hm
  unfold keysOf
  rw [List.map_map]
  have hid : (Prod.fst ∘ fun s : Str => (s, s)) = id := by
    funext s
    rfl
  rw [hid, List.map_id]

/-- C1 (amended).  For a successful glossary-aware run whose capability keys
each response by its chunk and whose chunk size is positive (the source loop
diverges at chunk size 0), the returned translations mapping covers: every
whole-string skip key, every placeholder-PROCESSED string sent to the API, and
every unique input string either via its skip entry or via its processed form
(the i-th original needing translation is keyed under the i-th processed
string, not necessarily under itself — see the counterexample). -/
theorem claim_C1_totality (api : Api) (strings : List Str)
    (targetLanguage apiKey : Str) (maxChunkSize : Nat) (g : GlossaryManager)
    (r : TransResult)
    (hn : maxChunkSize ≠ 0)
    (hapi : ∀ c m u, api c = some (m, u) → keysOf m = c)
    (hr : translateStrings api strings targetLanguage apiKey maxChunkSize (some g)
      = .ok r) :
    (∀ s, hasK (g.prepareForTranslation (uniqueOf strings)
        targetLanguage).skipTranslation s = true → hasK r.translations s = true) ∧
    (∀ ps, ps ∈ (g.prepareForTranslation (uniqueOf strings)
        targetLanguage).stringsForAPI → hasK r.translations ps = true) ∧
    (∀ s, s ∈ uniqueOf strings →
      hasK (g.prepareForTranslation (uniqueOf strings)
        targetLanguage).skipTranslation s = true ∨
      ∃ i, (g.prepareForTranslation (uniqueOf strings)
        targetLanguage).originalStrings.get? i = some s) ∧
    (∀ i s, (g.prepareForTranslation (uniqueOf strings)
        targetLanguage).originalStrings.get? i = some s →
      ∃ ps, (g.prepareForTranslation (uniqueOf strings)
        targetLanguage).stringsForAPI.get? i = some ps ∧
        hasK r.translations ps = true) := by
  have hcov : ∀ s, s ∈ uniqueOf strings →
      hasK (g.prepareForTranslation (uniqueOf strings)
        targetLanguage).skipTranslation s = true ∨
      ∃ i, (g.prepareForTranslation (uniqueOf strings)
        targetLanguage).originalStrings.get? i = some s := by
    intro s hs
    cases hd : dispositionOf g targetLanguage s with
    | some v =>
      left
      have h := filterFold_skip_of g targetLanguage (uniqueOf strings) s v hs hd ([], [])
      show (getK (List.foldl (filterStep g targetLanguage) ([], [])
        (uniqueOf strings)).2 s).isSome = true
      rw [h]
      rfl
    | none =>
      right
      have h := filterFold_need_of g targetLanguage (uniqueOf strings) s hs hd ([], [])
      rw [prep_originalStrings]
      exact List.mem_iff_get?.mp h
  have hlen : (g.prepareForTranslation (uniqueOf strings)
      targetLanguage).stringsForAPI.length =
      (g.prepareForTranslation (uniqueOf strings)
      targetLanguage).originalStrings.length := by
    rw [prep_stringsForAPI, prep_originalStrings]
    exact preprocess_length g
      (GlossaryManager.filterStrings g (uniqueOf strings) targetLanguage).1 targetLanguage
  cases hl : getK SUPPORTED_LANGUAGES targetLanguage with
  | none =>
    unfold translateStrings at hr
    rw [hl] at hr
    cases hr
  | some name =>
    unfold translateStrings at hr
    rw [hl] at hr
    dsimp only at hr
    by_cases hstr : strings = []
    · rw [if_pos hstr] at hr
      cases hr
    · rw [if_neg hstr] at hr
      by_cases hk : apiKey = []
      · rw [if_pos hk] at hr
        cases hr
      · rw [if_neg hk] at hr
        by_cases hsa : (g.prepareForTranslation (uniqueOf strings)
            targetLanguage).stringsForAPI = []
        · rw [if_pos hsa] at hr
          injection hr with h
          subst h
          refine ⟨?_, ?_, hcov, ?_⟩
          · intro s h
            exact hasK_assignAll_of_mem_keys []
              (g.prepareForTranslation (uniqueOf strings) targetLanguage).skipTranslation
              s ((hasK_iff_mem_keysOf _ s).mp h)
          · intro ps hps
            rw [hsa] at hps
            cases hps
          · intro i s hi
            rw [hsa] at hlen
            have horig : (g.prepareForTranslation (uniqueOf strings)
                targetLanguage).originalStrings = [] :=
              List.length_eq_zero.mp hlen.symm
            rw [horig] at hi
            cases hi
        · rw [if_neg hsa] at hr
          injection hr with h
          subst h
          have hB : ∀ ps, ps ∈ (g.prepareForTranslation (uniqueOf strings)
              targetLanguage).stringsForAPI →
              hasK (assignAll
                (processChunks api 0
                  (chunkify (g.prepareForTranslation (uniqueOf strings)
                    targetLanguage).stringsForAPI maxChunkSize)
                  (assignAll [] (g.prepareForTranslation (uniqueOf strings)
                    targetLanguage).skipTranslation) ⟨0, 0, 0, []⟩).1
                (postprocessTranslations
                  ((processChunks api 0
                    (chunkify (g.prepareForTranslation (uniqueOf strings)
                      targetLanguage).stringsForAPI maxChunkSize)
                    (assignAll [] (g.prepareForTranslation (uniqueOf strings)
                      targetLanguage).skipTranslation) ⟨0, 0, 0, []⟩).1.filter
                    (fun p => !hasK (g.prepareForTranslation (uniqueOf strings)
                      targetLanguage).skipTranslation p.1))
                  (g.prepareForTranslation (uniqueOf strings)
                    targetLanguage).glossaryMap)) ps = true := by
            intro ps hps
            have hf : ps ∈ (chunkify (g.prepareForTranslation (uniqueOf strings)
                targetLanguage).stringsForAPI maxChunkSize).flatten := by
              rw [chunkify_flatten _ _ hn]
              exact hps
            exact hasK_assignAll_mono _ _ ps
              (hasK_processChunks_of_mem_flatten api _ 0 _ _ ps hf hapi)
          refine ⟨?_, fun ps hps => hB ps hps, hcov, ?_⟩
          · intro s h
            refine hasK_assignAll_mono _ _ s ?_
            refine hasK_processChunks_mono api _ 0 _ _ s ?_
            exact hasK_assignAll_of_mem_keys []
              (g.prepareForTranslation (uniqueOf strings) targetLanguage).skipTranslation
              s ((hasK_iff_mem_keysOf _ s).mp h)
          · intro i s hi
            have hilt : i < (g.prepareForTranslation (uniqueOf strings)
                targetLanguage).originalStrings.length := by
              by_contra hc
              rw [List.get?_eq_none.mpr (Nat.le_of_not_lt hc)] at hi
              cases hi
            cases hpi : (g.prepareForTranslation (uniqueOf strings)
                targetLanguage).stringsForAPI.get? i with
            | none =>
              have := List.get?_eq_none.mp hpi
              omega
            | some ps =>
              exact ⟨ps, rfl, hB ps (List.get?_mem hpi)⟩

/-- Witness for the amended C1: the Acme run resolves `"Acme"` under its skip
key and `"Welcome to Acme today"` under its processed form. -/
theorem claim_C1_totality_witness :
    ∃ r, translateStrings apiIdentity [str "Welcome to Acme today", str "Acme"]
        (str "es") (str "k") 50 (some acmeGloss) = .ok r ∧
      hasK r.translations (str "Acme") = true ∧
      hasK r.translations (str "Welcome to __GLOSSARY_0__ today") = true := by
  obtain ⟨r, hr⟩ : ∃ r, translateStrings apiIdentity
      [str "Welcome to Acme today", str "Acme"] (str "es") (str "k") 50
      (some acmeGloss) = .ok r := ⟨_, rfl⟩
  have h := claim_C1_totality apiIdentity [str "Welcome to Acme today", str "Acme"]
    (str "es") (str "k") 50 acmeGloss r (by decide) apiIdentity_keyed hr
  exact ⟨r, hr, h.1 (str "Acme") (by decide),
    h.2.1 (str "Welcome to __GLOSSARY_0__ today") (by decide)⟩

/-! ## Placeholder round trip (claim C4) -/

theorem firstMatchIdx_cons (pat : Str) (c : Char) (rest : Str) :
    firstMatchIdx pat (c :: rest) =
      if pat.isPrefixOf (c :: rest) then some 0
      else (firstMatchIdx pat rest).map (· + 1) := rfl

theorem containsSub_tail {pat : Str} {c : Char} {l : Str}
    (h : containsSub pat (c :: l) = false) : containsSub pat l = false := by
  unfold containsSub at h ⊢
  rw [firstMatchIdx_cons] at h
  by_cases hp : pat.isPrefixOf (c :: l) = true
  · rw [if_pos hp] at h
    exact absurd h (by decide)
  · rw [if_neg hp] at h
    cases hm : firstMatchIdx pat l with
    | none => rfl
    | some i =>
      rw [hm] at h
      exact Bool.noConfusion h

theorem occursAt_of_prefix_pat {pat1 pat2 l : Str} {i : Nat} (hp : pat1 <+: pat2)
    (h : occursAt pat2 l i = true) : occursAt pat1 l i = true := by
  unfold occursAt at h ⊢
  rw [List.isPrefixOf_iff_prefix] at h ⊢
  exact hp.trans h

theorem containsSub_true_of_occursAt {pat l : Str} {i : Nat}
    (h : occursAt pat l i = true) : containsSub pat l = true := by
  cases hc : containsSub pat l with
  | true => rfl
  | false =>
    rw [containsSub_eq_false_iff] at hc
    rw [hc i] at h
    exact Bool.noConfusion h

theorem containsSub_take {pat l : Str} {k : Nat}
    (h : containsSub pat l = false) : containsSub pat (l.take k) = false := by
  rw [containsSub_eq_false_iff] at h ⊢
  intro i
  cases ho : occursAt pat (l.take k) i with
  | false => rfl
  | true =>
    exfalso
    have hpre : (l.take k).drop i <+: l.drop i := by
      rw [List.drop_take]
      exact List.take_prefix _ _
    have h2 : occursAt pat l i = true := by
      unfold occursAt at ho ⊢
      rw [List.isPrefixOf_iff_prefix] at ho ⊢
      exact ho.trans hpre
    rw [h i] at h2
    exact Bool.noConfusion h2

theorem containsSub_drop {pat l : Str} {k : Nat}
    (h : containsSub pat l = false) : containsSub pat (l.drop k) = false := by
  rw [containsSub_eq_false_iff] at h ⊢
  intro i
  cases ho : occursAt pat (l.drop k) i with
  | false => rfl
  | true =>
    exfalso
    have h2 : occursAt pat l (k + i) = true := by
      unfold occursAt at ho ⊢
      rw [List.drop_drop] at ho
      exact ho
    rw [h (k + i)] at h2
    exact Bool.noConfusion h2

/-- The `__GLOSSARY_0__` token cannot start strictly inside `b` in
`b ++ __GLOSSARY_0__ ++ rest` when `b` holds no `__GLOSSARY_` run: a long
overlap would put `__GLOSSARY_` inside `b`, and a short overlap is refuted by
the position of the unique `G`. -/
theorem ph0_not_prefix (b rest : Str) (hb : b ≠ [])
    (hnb : containsSub (str "__GLOSSARY_") b = false) :
    (placeholderOf 0).isPrefixOf (b ++ (placeholderOf 0 ++ rest)) = false := by
  cases hp : (placeholderOf 0).isPrefixOf (b ++ (placeholderOf 0 ++ rest)) with
  | false => rfl
  | true =>
    exfalso
    rw [List.isPrefixOf_iff_prefix] at hp
    have hb1 : 1 ≤ b.length := List.length_pos.mpr hb
    have h14 : (placeholderOf 0).length = 14 := rfl
    by_cases hlen : 14 ≤ b.length
    · rw [List.prefix_iff_eq_take, h14, List.take_append_of_le_length hlen] at hp
      have hph0b : placeholderOf 0 <+: b := by
        rw [List.prefix_iff_eq_take, h14]
        exact hp
      have hg : (str "__GLOSSARY_") <+: b := List.IsPrefix.trans (by decide) hph0b
      have hocc : occursAt (str "__GLOSSARY_") b 0 = true := by
        rw [occursAt_zero, List.isPrefixOf_iff_prefix]
        exact hg
      have hcon := containsSub_true_of_occursAt hocc
      rw [hnb] at hcon
      exact Bool.noConfusion hcon
    · push_neg at hlen
      obtain ⟨t, ht⟩ := hp
      have hbtake : b = (placeholderOf 0).take b.length := by
        have h1 := List.take_left b (placeholderOf 0 ++ rest)
        rw [← ht] at h1
        rw [List.take_append_of_le_length (by rw [h14]; omega)] at h1
        exact h1.symm
      by_cases h11 : 11 ≤ b.length
      · have hg : (str "__GLOSSARY_") <+: b := by
          rw [hbtake]
          have heq : (str "__GLOSSARY_") =
              ((placeholderOf 0).take b.length).take 11 := by
            rw [List.take_take, Nat.min_eq_left h11]
            decide
          rw [heq]
          exact List.take_prefix _ _
        have hocc : occursAt (str "__GLOSSARY_") b 0 = true := by
          rw [occursAt_zero, List.isPrefixOf_iff_prefix]
          exact hg
        have hcon := containsSub_true_of_occursAt hocc
        rw [hnb] at hcon
        exact Bool.noConfusion hcon
      · push_neg at h11
        have hG : (placeholderOf 0).get? (b.length + 2) = some 'G' := by
          have h1 := congrArg (fun l : Str => l.get? (b.length + 2)) ht
          dsimp only at h1
          rw [List.get?_append (by rw [h14]; omega)] at h1
          rw [List.get?_append_right (by omega)] at h1
          have hidx : b.length + 2 - b.length = 2 := by omega
          rw [hidx] at h1
          rw [List.get?_append (by rw [h14]; omega)] at h1
          exact h1.trans (by decide)
        obtain ⟨d, hd⟩ : ∃ d, b.length = d := ⟨_, rfl⟩
        rw [hd] at hG hb1 h11
        have h10 : d ≤ 10 := by omega
        interval_cases d
        all_goals exact absurd hG (by decide)

/-- Leftmost occurrence of the placeholder in `b ++ __GLOSSARY_0__ ++ a` is
exactly at `b.length` when `b` holds no `__GLOSSARY_` run. -/
theorem firstMatchIdx_ph0_append (b a : Str)
    (hnb : containsSub (str "__GLOSSARY_") b = false) :
    firstMatchIdx (placeholderOf 0) (b ++ (placeholderOf 0 ++ a)) =
      some b.length := by
  induction b with
  | nil =>
    rw [List.nil_append]
    refine firstMatchIdx_of_occurs ?_ ?_
    · show occursAt (placeholderOf 0) (placeholderOf 0 ++ a) 0 = true
      rw [occursAt_zero, List.isPrefixOf_iff_prefix]
      exact List.prefix_append _ _
    · intro j hj
      exact absurd hj (Nat.not_lt_zero j)
  | cons c b' ih =>
    have hnb' : containsSub (str "__GLOSSARY_") b' = false := containsSub_tail hnb
    rw [List.cons_append, firstMatchIdx_cons]
    have hnp := ph0_not_prefix (c :: b') a (List.cons_ne_nil c b') hnb
    rw [List.cons_append] at hnp
    rw [if_neg (by rw [hnp]; decide)]
    rw [ih hnb']
    rfl

theorem firstMatchIdx_ph0_none {a : Str}
    (hna : containsSub (str "__GLOSSARY_") a = false) :
    firstMatchIdx (placeholderOf 0) a = none := by
  cases hm : firstMatchIdx (placeholderOf 0) a with
  | none => rfl
  | some i =>
    exfalso
    have hocc := firstMatchIdx_occurs hm
    have hocc2 : occursAt (str "__GLOSSARY_") a i = true :=
      occursAt_of_prefix_pat (by decide) hocc
    have hcon := containsSub_true_of_occursAt hocc2
    rw [hna] at hcon
    exact Bool.noConfusion hcon

theorem containsSub_ph0_eq_false {l : Str}
    (h : containsSub (str "__GLOSSARY_") l = false) :
    containsSub (placeholderOf 0) l = false := by
  rw [containsSub_eq_false_iff] at h ⊢
  intro i
  cases ho : occursAt (placeholderOf 0) l i with
  | false => rfl
  | true =>
    exfalso
    have h2 : occursAt (str "__GLOSSARY_") l i = true :=
      occursAt_of_prefix_pat (by decide) ho
    rw [h i] at h2
    exact Bool.noConfusion h2

/-- C4.  Single-match placeholder round trip: preprocessing a string whose
glossary scan finds exactly one qualifying term occurrence yields the string
with that occurrence replaced by `__GLOSSARY_0__` and a one-entry glossary map;
the token occurs exactly once in the processed string; postprocessing an
identity API translation replaces the token with the stored final translation;
and for a `doNotTranslate` entry the original string is restored verbatim with
no placeholder token remaining. -/
theorem claim_C4_placeholder_round_trip (g : GlossaryManager) (s : Str)
    (e : GlossaryEntry) (p : Nat) (targetLang : Str)
    (hfind : g.findInText s = [FoundTerm.mk e.term p e.term e])
    (hterm : e.term ≠ [])
    (hslice : (s.drop p).take e.term.length = e.term)
    (hq : glossQualifies e targetLang = true)
    (hs : containsSub (str "__GLOSSARY_") s = false) :
    g.preprocessStrings [s] targetLang =
      ([s.take p ++ placeholderOf 0 ++ s.drop (p + e.term.length)],
       [(placeholderOf 0,
         ⟨e.term, e.term, glossFinalOf e targetLang, p, e.caseSensitive⟩)]) ∧
    countSub (placeholderOf 0)
      (s.take p ++ placeholderOf 0 ++ s.drop (p + e.term.length)) = 1 ∧
    postprocessTranslations
      [(s.take p ++ placeholderOf 0 ++ s.drop (p + e.term.length),
        s.take p ++ placeholderOf 0 ++ s.drop (p + e.term.length))]
      [(placeholderOf 0,
        ⟨e.term, e.term, glossFinalOf e targetLang, p, e.caseSensitive⟩)] =
      [(s.take p ++ placeholderOf 0 ++ s.drop (p + e.term.length),
        s.take p ++ glossFinalOf e targetLang ++ s.drop (p + e.term.length))] ∧
    (e.doNotTranslate = true →
      s.take p ++ glossFinalOf e targetLang ++ s.drop (p + e.term.length) = s ∧
      containsSub (placeholderOf 0)
        (s.take p ++ glossFinalOf e targetLang ++
          s.drop (p + e.term.length)) = false) := by
  have h14 : (placeholderOf 0).length = 14 := rfl
  have hphne : placeholderOf 0 ≠ [] := by decide
  have hlenslice := congrArg List.length hslice
  rw [List.length_take, List.length_drop] at hlenslice
  have ht1 : 1 ≤ e.term.length := List.length_pos.mpr hterm
  have hple : p + e.term.length ≤ s.length := by omega
  have hblen : (s.take p).length = p := by
    rw [List.length_take]
    omega
  have hnb : containsSub (str "__GLOSSARY_") (s.take p) = false := containsSub_take hs
  have hna : containsSub (str "__GLOSSARY_") (s.drop (p + e.term.length)) = false :=
    containsSub_drop hs
  have hfm : firstMatchIdx (placeholderOf 0)
      (s.take p ++ placeholderOf 0 ++ s.drop (p + e.term.length)) = some p := by
    rw [List.append_assoc]
    rw [firstMatchIdx_ph0_append (s.take p) (s.drop (p + e.term.length)) hnb]
    rw [hblen]
  have hdrop : (s.take p ++ placeholderOf 0 ++ s.drop (p + e.term.length)).drop
      (p + (placeholderOf 0).length) = s.drop (p + e.term.length) := by
    have hlen2 : p + (placeholderOf 0).length =
        (s.take p ++ placeholderOf 0).length := by
      rw [List.length_append, hblen]
    rw [hlen2, List.drop_left]
  have htake : (s.take p ++ placeholderOf 0 ++
      s.drop (p + e.term.length)).take p = s.take p := by
    have hta := List.take_left (s.take p)
      (placeholderOf 0 ++ s.drop (p + e.term.length))
    rw [hblen] at hta
    rw [List.append_assoc]
    exact hta
  refine ⟨?_, ?_, ?_, ?_⟩
  · unfold GlossaryManager.preprocessStrings
    dsimp only
    rw [List.foldl_cons, List.foldl_nil]
    unfold preprocessStep
    rw [hfind]
    dsimp only
    have hsort : sortPosDesc [FoundTerm.mk e.term p e.term e] =
        [FoundTerm.mk e.term p e.term e] := rfl
    rw [hsort, List.foldl_cons, List.foldl_nil]
    unfold applyFound
    dsimp only
    rw [if_pos hq]
    dsimp only
    rfl
  · rw [countSub_of_some hphne hfm, hdrop,
      countSub_of_none (firstMatchIdx_ph0_none hna)]
  · unfold postprocessTranslations
    rw [List.foldl_cons, List.foldl_nil]
    dsimp only
    unfold restorePlaceholders
    rw [List.foldl_cons, List.foldl_nil]
    dsimp only
    have hcontains : containsSub (placeholderOf 0)
        (s.take p ++ placeholderOf 0 ++ s.drop (p + e.term.length)) = true := by
      unfold containsSub
      rw [hfm]
      rfl
    rw [if_pos hcontains]
    rw [replaceAll_of_some hphne hfm, htake, hdrop,
      replaceAll_of_none (firstMatchIdx_ph0_none hna)]
    rfl
  · intro hdnt
    have hfin : glossFinalOf e targetLang = e.term := by
      unfold glossFinalOf
      rw [if_pos hdnt]
    have h2 : s.drop p = e.term ++ s.drop (p + e.term.length) := by
      conv_lhs => rw [← List.take_append_drop e.term.length (s.drop p)]
      rw [hslice]
      congr 1
      rw [List.drop_drop]
    have hres : s.take p ++ glossFinalOf e targetLang ++
        s.drop (p + e.term.length) = s := by
      rw [hfin, List.append_assoc, ← h2, List.take_append_drop]
    refine ⟨hres, ?_⟩
    rw [hres]
    exact containsSub_ph0_eq_false hs

/-- Witness for C4: the spec's Acme example — the token count is 1 and the
`doNotTranslate` round trip restores `"Welcome to Acme today"`. -/
theorem claim_C4_placeholder_round_trip_witness :
    countSub (placeholderOf 0)
      ((str "Welcome to Acme today").take 11 ++ placeholderOf 0 ++
        (str "Welcome to Acme today").drop (11 + (str "Acme").length)) = 1 ∧
    (str "Welcome to Acme today").take 11 ++ glossFinalOf acmeEntry (str "es") ++
      (str "Welcome to Acme today").drop (11 + (str "Acme").length) =
      str "Welcome to Acme today" := by
  have h := claim_C4_placeholder_round_trip acmeGloss (str "Welcome to Acme today")
    acmeEntry 11 (str "es") (by decide) (by decide) (by decide) (by decide) (by decide)
  exact ⟨h.2.1, (h.2.2.2 (by decide)).1⟩

/-! ## Exclusion scoping (claim C8) -/

theorem matchesOneRule_iff (r : ExcludeRule) (t : TagInfo) :
    matchesOneRule r t = true ↔
      (∀ tg, r.tag = some tg → t.tag = tg) ∧
      (∀ i, r.id = some i → t.id = some i) ∧
      (∀ c ∈ r.classes, c ∈ t.classes) := by
  unfold matchesOneRule
  by_cases h1 : r.tag.isSome ∧ r.tag ≠ some t.tag
  · rw [if_pos h1]
    constructor
    · intro h
      exact Bool.noConfusion h
    · rintro ⟨ha, _, _⟩
      obtain ⟨h1a, h1b⟩ := h1
      obtain ⟨tg, htg⟩ := Option.isSome_iff_exists.mp h1a
      exact False.elim (h1b (by rw [htg, ha tg htg]))
  · rw [if_neg h1]
    push_neg at h1
    have tagOK : ∀ tg, r.tag = some tg → t.tag = tg := by
      intro tg htg
      have h := h1 (by rw [htg]; rfl)
      rw [htg] at h
      injection h with h
      exact h.symm
    by_cases h2 : r.tag.isSome ∧ r.id = none ∧ r.classes = []
    · rw [if_pos h2]
      constructor
      · intro _
        refine ⟨tagOK, ?_, ?_⟩
        · intro i hi
          rw [h2.2.1] at hi
          cases hi
        · intro c hc
          rw [h2.2.2] at hc
          cases hc
      · intro _
        rfl
    · rw [if_neg h2]
      by_cases h3 : r.id.isSome ∧ r.id ≠ t.id
      · rw [if_pos h3]
        constructor
        · intro h
          exact Bool.noConfusion h
        · rintro ⟨_, hb, _⟩
          obtain ⟨h3a, h3b⟩ := h3
          obtain ⟨i, hi⟩ := Option.isSome_iff_exists.mp h3a
          exact False.elim (h3b (by rw [hi, hb i hi]))
      · rw [if_neg h3]
        push_neg at h3
        have idOK : ∀ i, r.id = some i → t.id = some i := by
          intro i hi
          have h := h3 (by rw [hi]; rfl)
          rw [hi] at h
          exact h.symm
        by_cases h4 : r.classes ≠ [] ∧ ¬(∀ c ∈ r.classes, c ∈ t.classes)
        · rw [if_pos h4]
          constructor
          · intro h
            exact Bool.noConfusion h
          · rintro ⟨_, _, hc⟩
            exact absurd hc h4.2
        · rw [if_neg h4]
          push_neg at h4
          constructor
          · intro _
            refine ⟨tagOK, idOK, ?_⟩
            by_cases hcl : r.classes = []
            · intro c hc
              rw [hcl] at hc
              cases hc
            · exact h4 hcl
          · intro _
            rfl

/-- C8.  A position is excluded iff some still-open ancestor tag on the stack
at that position matches some exclusion rule, where matching means: the rule's
tag (if specified) equals the ancestor's tag, its id (if specified) equals the
ancestor's id, and every class of the rule appears in the ancestor's classes;
concretely, the spec's markup with rule `div.no-translate` extracts exactly
`"Visible"` and excludes `"Hidden"`. -/
theorem claim_C8_exclusion_scoping :
    (∀ (code : Str) (pos : Nat) (rules : List ExcludeRule),
      shouldExcludeText code pos rules = true ↔
        rules ≠ [] ∧ ∃ t ∈ buildStack code pos, ∃ r ∈ rules,
          (∀ tg, r.tag = some tg → t.tag = tg) ∧
          (∀ i, r.id = some i → t.id = some i) ∧
          (∀ c ∈ r.classes, c ∈ t.classes)) ∧
    polygotParser
      (str "<div class=\"no-translate\"><span>Hidden</span></div><span>Visible</span>")
      [str "title", str "alt", str "placeholder"] [str "div.no-translate"] =
      [str "Visible"] := by
  constructor
  · intro code pos rules
    unfold shouldExcludeText
    by_cases hrules : rules = []
    · rw [if_pos hrules]
      constructor
      · intro h
        exact Bool.noConfusion h
      · rintro ⟨hne, _⟩
        exact absurd hrules hne
    · rw [if_neg hrules]
      rw [List.any_eq_true]
      constructor
      · rintro ⟨t, ht, hm⟩
        refine ⟨hrules, t, ht, ?_⟩
        unfold matchesExcludeRule at hm
        rw [List.any_eq_true] at hm
        obtain ⟨r, hrr, hone⟩ := hm
        exact ⟨r, hrr, (matchesOneRule_iff r t).mp hone⟩
      · rintro ⟨_, t, ht, r, hrr, hprops⟩
        refine ⟨t, ht, ?_⟩
        unfold matchesExcludeRule
        rw [List.any_eq_true]
        exact ⟨r, hrr, (matchesOneRule_iff r t).mpr hprops⟩
  · decide

end Polygot
